import Mathlib

/-!
Verification of dune-pdelab-howto: boundary data of the Poisson example and the drivers.

A shallow embedding of the parameter functions of
`src/convection-diffusion/poisson.cc` (boundary classifier, flux), of the
`poisson` driver, of the time loop of `src/course-examples/example05_QkQk.hh`
and of the interpolation drivers of `src/course-gridfunctionspace`.

Conventions.
* `double` is idealised as `ℚ` (exact arithmetic); the literals `1E-6`,
  `1e-8`, `1.1`, `0.5` denote the exact decimal fractions.
* A `Dune::FieldVector` is its coordinate accessor `Nat → ℚ` (`x i` is `x[i]`).
* An output reference parameter (`RangeType& y`) is an explicit prior value
  that the function returns updated.
-/

namespace PDELabHowto

/-! ## Parameter functions of `poisson.cc` -/

/-- A point in global coordinates: `x i` is the C++ `x[i]`. -/
abbrev Point := Nat → ℚ

/-- `BCTypeParam::isDirichlet` (poisson.cc, lines 97-113).  The intersection
enters only through its geometry's local-to-global map `global`. -/
def BCTypeParam.isDirichlet {C : Type} (global : C → Point) (coord : C) : Bool :=
  let xg := global coord
  if xg 1 < 1e-6 ∨ xg 1 > 1.0 - 1e-6 then
    false -- Neumann b.c.
  else if xg 0 > 1.0 - 1e-6 ∧ xg 1 > 0.5 + 1e-6 then
    false -- Neumann b.c.
  else
    true -- Dirichlet b.c. on all other boundaries

/-- `J::evaluateGlobal` (poisson.cc, lines 148-161): `y` is the content of the
output reference on entry, the result its content on return. -/
def J.evaluateGlobal (x : Point) (y : ℚ) : ℚ :=
  if x 1 < 1e-6 ∨ x 1 > 1.0 - 1e-6 then
    0
  else if x 0 > 1.0 - 1e-6 ∧ x 1 > 0.5 + 1e-6 then
    -5.0
  else
    y

/-! ## The time loop of `example05_QkQk` -/

/-- `std::min(a, b)`: returns `b` when `b < a`, else `a`. -/
def stdMin (a b : ℚ) : ℚ := if b < a then b else a

/-- Lines 124-125 of example05_QkQk.hh: the step size after a completed step. -/
def nextDt (dt dtmax : ℚ) : ℚ :=
  if dt < dtmax - 1e-8 then stdMin (dt * 1.1) dtmax else dt

/-- The variables the time loop reads and writes, with the list of vectors
written to VTK files so far (oldest first). -/
structure LoopState (U : Type) where
  time : ℚ
  dt : ℚ
  uold : U
  unew : U
  files : List U

/-- One pass through the body of the `while` loop (lines 108-125).
`osmApply time dt uold unew` stands for `osm.apply(time,dt,uold,unew)`: it
returns the new content of `unew`, or fails (a C++ exception). -/
def stepBody {E U : Type} (osmApply : ℚ → ℚ → U → U → Except E U) (dtmax : ℚ)
    (s : LoopState U) : Except E (LoopState U) :=
  match osmApply s.time s.dt s.uold s.unew with
  | .error e => .error e
  | .ok unew =>
    .ok { time := s.time + s.dt
          dt := nextDt s.dt dtmax
          uold := unew
          unew := unew
          files := s.files ++ [unew] }

/-- How the time loop ends. -/
inductive LoopOutcome (E U : Type) where
  /-- The loop condition became false; the function returns normally. -/
  | finished (s : LoopState U) : LoopOutcome E U
  /-- The exception `e` left `osm.apply` and with it the function; `s` holds the
  variables as they were on entry to the failing call. -/
  | failed (e : E) (s : LoopState U) : LoopOutcome E U
  /-- The step budget of the model ran out with the loop condition still true. -/
  | outOfFuel (s : LoopState U) : LoopOutcome E U

/-- The `while (time<tend-1e-8)` loop (lines 106-126), run for at most `fuel`
passes.  There is no `try`/`catch` in the function: a failing `osm.apply` ends
it. -/
def timeLoop {E U : Type} (osmApply : ℚ → ℚ → U → U → Except E U) (dtmax tend : ℚ) :
    Nat → LoopState U → LoopOutcome E U
  | 0, s => if s.time < tend - 1e-8 then .outOfFuel s else .finished s
  | fuel + 1, s =>
    if s.time < tend - 1e-8 then
      match stepBody osmApply dtmax s with
      | .error e => .failed e s
      | .ok s' => timeLoop osmApply dtmax tend fuel s'
    else .finished s

/-- The state on entry to the time loop (lines 7, 58-65, 98-105): `u0` is the
interpolated initial value, already written to the first file. -/
def initialState {U : Type} (u0 : U) (dtstart : ℚ) : LoopState U :=
  { time := 0.0, dt := dtstart, uold := u0, unew := u0, files := [u0] }

/-- The part of `example05_QkQk` from the initial output on. -/
def example05_QkQk {E U : Type} (osmApply : ℚ → ℚ → U → U → Except E U) (u0 : U)
    (dtstart dtmax tend : ℚ) (fuel : Nat) : LoopOutcome E U :=
  timeLoop osmApply dtmax tend fuel (initialState u0 dtstart)

/-! ## Constraints, `poisson` and `q1interpolate` -/

/-- A coefficient vector over `n` DOFs, indexed by global DOF. -/
abbrev Vec (n : Nat) := Fin n → ℚ

/-- Modelled from the spec: the Constraint Relation of §3 (the library's
container type is not among the sources): the (master DOF, weight) pairs of a
constrained DOF and its scalar offset.  A Dirichlet DOF has no masters. -/
structure Relation (n : Nat) where
  masters : List (Fin n × ℚ)
  offset : ℚ

/-- Modelled from the spec: the constraints container (`cg` in `poisson`, `t`
in `q1interpolate`; its type is library code), as its entries
(constrained DOF, relation) in iteration order. -/
abbrev Constraints (n : Nat) := List (Fin n × Relation n)

/-- Modelled from the spec: the value `offset + Σ weight_i · x[master_i]` that a
relation forces (§3, §4.3). -/
def Relation.value {n : Nat} (r : Relation n) (x : Vec n) : ℚ :=
  r.offset + (r.masters.map (fun mw => mw.2 * x mw.1)).sum

/-- Modelled from the spec: `backtransform` of §4.3 (the local assembler of the
library is not among the sources): each constrained DOF is overwritten with
`offset + Σ weight_i · x[master_i]`, entry after entry; a DOF with an empty
relation set counts as unconstrained (§3, "its own master") and is left as
it is. -/
def backtransform {n : Nat} (cg : Constraints n) (x : Vec n) : Vec n :=
  cg.foldl
    (fun x e => if e.2.masters.isEmpty then x else Function.update x e.1 (e.2.value x)) x

/-- Modelled from the spec: `Dune::PDELab::set_shifted_dofs(cg,v,x)` is library
code outside the sources and the spec has no sentence on it; following the
caller's comment (poisson.cc line 255, "Set values of hangingnodes to zero")
it assigns `v` to every constrained DOF whose relation has masters. -/
def set_shifted_dofs {n : Nat} (cg : Constraints n) (v : ℚ) (x : Vec n) : Vec n :=
  cg.foldl (fun x e => if e.2.masters.isEmpty then x else Function.update x e.1 v) x

/-- Modelled from the spec: `Dune::PDELab::set_nonconstrained_dofs(t,v,x)` is
library code outside the sources and the spec has no sentence on it; following
the caller's comment (q1constrainedinterpolate.hh line 30, "clear interior") it
assigns `v` to every DOF and then restores the former value of every DOF that
has an entry in `t`. -/
def set_nonconstrained_dofs {n : Nat} (t : Constraints n) (v : ℚ) (x : Vec n) : Vec n :=
  let tmp := x
  t.foldl (fun x e => Function.update x e.1 (tmp e.1)) (fun _ => v)

/-- The initial vector of `poisson` (poisson.cc lines 212-226): `x0 = 0.0`,
interpolation of `g` (`interpolate_g` is the effect of
`Dune::PDELab::interpolate(g,gfs,·)` on the vector), `set_shifted_dofs`, and the
back-transformation that precedes assembly. -/
def poisson_x0 {n : Nat} (cg : Constraints n) (interpolate_g : Vec n → Vec n) : Vec n :=
  let x0 : Vec n := fun _ => 0.0
  let x0 := interpolate_g x0
  let x0 := set_shifted_dofs cg 0.0 x0
  backtransform cg x0

/-- The correction computed by `poisson` (lines 219-253): `jacobian x0` is the
matrix after `m = 0.0; go.jacobian(x0,m)`, `residual x0` the vector after
`r = 0.0; go.residual(x0,r)`, and `solve m r x` the content of `x` after
`solvera.apply(x,r,stat)`. -/
def poisson_dx {n : Nat} (cg : Constraints n) (interpolate_g : Vec n → Vec n)
    (jacobian : Vec n → Matrix (Fin n) (Fin n) ℚ) (residual : Vec n → Vec n)
    (solve : Matrix (Fin n) (Fin n) ℚ → Vec n → Vec n → Vec n) : Vec n :=
  let x0 := poisson_x0 cg interpolate_g
  let m := jacobian x0
  let r := residual x0
  let r := (-1.0 : ℚ) • r
  let x : Vec n := fun _ => 0.0
  solve m r x

/-- The vector `poisson` hands to the VTK writer (lines 210-265). -/
def poisson {n : Nat} (cg : Constraints n) (interpolate_g : Vec n → Vec n)
    (jacobian : Vec n → Matrix (Fin n) (Fin n) ℚ) (residual : Vec n → Vec n)
    (solve : Matrix (Fin n) (Fin n) ℚ → Vec n → Vec n → Vec n) : Vec n :=
  let x0 := poisson_x0 cg interpolate_g
  let x := poisson_dx cg interpolate_g jacobian residual solve
  let x0 := set_shifted_dofs cg 0.0 x0
  let x := x + x0
  backtransform cg x

/-- The vector `q1interpolate` plots (q1constrainedinterpolate.hh lines 26-30):
`x = 0.0`, interpolation of `u`, `set_nonconstrained_dofs(t,0.0,x)`. -/
def q1interpolate {n : Nat} (t : Constraints n) (interpolate_u : Vec n → Vec n) : Vec n :=
  let x : Vec n := fun _ => 0.0
  let x := interpolate_u x
  set_nonconstrained_dofs t 0.0 x

/-- A DOF is shifted when the container has an entry for it with masters. -/
def isShifted {n : Nat} (cg : Constraints n) (d : Fin n) : Prop :=
  ∃ e ∈ cg, e.1 = d ∧ e.2.masters ≠ []

instance {n : Nat} (cg : Constraints n) (d : Fin n) : Decidable (isShifted cg d) := by
  unfold isShifted
  infer_instance

/-! ## Orderings of composite spaces -/

/-- Modelled from the spec: the lexicographic ordering of §4.1 (the ordering
code of the library is not among the sources): all DOFs of child 0 precede all
of child 1, and so on.  `sizes` lists the DOF counts of the children, `i` is
the child and `j` the child-local DOF index. -/
def lexicographicIndex (sizes : List Nat) (i j : Nat) : Nat :=
  (sizes.take i).sum + j

/-- Modelled from the spec: the entity-blocked ordering of §4.1 for a power
space of `c` equal children (the ordering code of the library is not among the
sources): the DOFs of all children for one entity are interleaved, with block
size the number of children.  `i` is the child, `j` the child-local DOF
index. -/
def entityBlockedIndex (c : Nat) (i j : Nat) : Nat :=
  j * c + i

/-- DOF counts of the two children of the Taylor-Hood space of `thinterpolate`
(thinterpolate.hh lines 30-38): the velocity power space, `dim` copies of a Q2
space of `nq2` DOFs, then the Q1 pressure space of `nq1` DOFs. -/
def thinterpolateSizes (dim nq2 nq1 : Nat) : List Nat :=
  [dim * nq2, nq1]

/-- Number of children of the power space of `example05_QkQk` (lines 17-21). -/
def example05Children : Nat := 2

/-! ## The Dirichlet value `G` -/

/-- `FieldVector::two_norm2` on a vector of `dim` entries: the sum of the
squares of its entries. -/
def FieldVector.two_norm2 (dim : Nat) (v : Point) : ℚ :=
  ((List.range dim).map (fun i => v i * v i)).sum

/-- `G::evaluateGlobal` (poisson.cc lines 127-134) for `GV::dimension = dim`.
`cexp` stands for the C function `exp`; everything up to its argument is
rational arithmetic. -/
def G.evaluateGlobal {α : Type} (cexp : ℚ → α) (dim : Nat) (x : Point) : α :=
  let center : Point := fun _ => 0.5
  let center : Point := fun i => center i - x i
  cexp (-(FieldVector.two_norm2 dim center))

/-! ## Step sizes and completed passes of the time loop -/

/-- The step size of pass number `n` (counted from 0) of the time loop:
`dtstart` (line 105) updated `n` times by lines 124-125. -/
def stepSize (dtstart dtmax : ℚ) : Nat → ℚ
  | 0 => dtstart
  | n + 1 => nextDt (stepSize dtstart dtmax n) dtmax

/-- The variables after `n` completed passes of the loop body from state `s`:
defined when the loop condition (line 106) holds before each of them and each
`osm.apply` returns. -/
def afterPasses {E U : Type} (osmApply : ℚ → ℚ → U → U → Except E U) (dtmax tend : ℚ) :
    Nat → LoopState U → Option (LoopState U)
  | 0, s => some s
  | n + 1, s =>
    if s.time < tend - 1e-8 then
      match stepBody osmApply dtmax s with
      | .error _ => none
      | .ok s' => afterPasses osmApply dtmax tend n s'
    else none

/-! ## Grid commands, `doSomeRandomRefinement` and hanging-node isolation -/

/-- The adaptation commands the sources issue to a grid. -/
inductive GridCmd (Cell : Type) where
  | globalRefine (levels : Nat) : GridCmd Cell
  | mark (refCount : Int) (cell : Cell) : GridCmd Cell
  | preAdapt : GridCmd Cell
  | adapt : GridCmd Cell
  | postAdapt : GridCmd Cell
  deriving DecidableEq

/-- The grid as the sources use it (the grid managers are external): the leaf
cells in the order of `leafbegin<0>` .. `leafend<0>`, and the effect of a
command on the grid. -/
structure GridOps (G Cell : Type) where
  leafCells : G → List Cell
  exec : GridCmd Cell → G → G

/-- What `doSomeRandomRefinement` acts on: the grid, the number of calls of
`rand()` made so far, and the commands issued so far (oldest first). -/
structure RefineState (G Cell : Type) where
  grid : G
  randCalls : Nat
  log : List (GridCmd Cell)

/-- Issue one command to the grid. -/
def issue {G Cell : Type} (ops : GridOps G Cell) (cmd : GridCmd Cell)
    (s : RefineState G Cell) : RefineState G Cell :=
  { grid := ops.exec cmd s.grid, randCalls := s.randCalls, log := s.log ++ [cmd] }

/-- The body of the inner loop of `doSomeRandomRefinement` (poisson.cc lines
293-294) for one leaf cell.  `draws k` is the value returned by call number `k`
of `rand()`; `RAND_MAX` is the constant of `<cstdlib>`. -/
def visitCell {G Cell : Type} (ops : GridOps G Cell) (RAND_MAX : Nat) (draws : Nat → Nat)
    (s : RefineState G Cell) (cell : Cell) : RefineState G Cell :=
  let r := draws s.randCalls
  let s := { s with randCalls := s.randCalls + 1 }
  if (r : ℚ) / (RAND_MAX : ℚ) > 0.6 then issue ops (.mark 1 cell) s else s

/-- One pass of the outer loop of `doSomeRandomRefinement` (lines 289-298): the
leaf iterator range is taken on entry, every cell of it is visited, then
`preAdapt`, `adapt`, `postAdapt`. -/
def refinementPass {G Cell : Type} (ops : GridOps G Cell) (RAND_MAX : Nat)
    (draws : Nat → Nat) (s : RefineState G Cell) : RefineState G Cell :=
  let cells := ops.leafCells s.grid
  let s := cells.foldl (visitCell ops RAND_MAX draws) s
  let s := issue ops .preAdapt s
  let s := issue ops .adapt s
  issue ops .postAdapt s

/-- `doSomeRandomRefinement` (poisson.cc lines 282-301): `for(int i=0; i<4;++i)`. -/
def doSomeRandomRefinement {G Cell : Type} (ops : GridOps G Cell) (RAND_MAX : Nat)
    (draws : Nat → Nat) (s : RefineState G Cell) : RefineState G Cell :=
  (List.range 4).foldl (fun s _ => refinementPass ops RAND_MAX draws s) s

/-- Modelled from the spec: what the hanging-node engine reads from a grid (the
engine is library code outside the sources): the number of hanging nodes on
each edge of the leaf grid, and the leaf entities adjacent to faces with more
than one hanging node (§4.2). -/
structure HangingNodeView (G Cell : Type) where
  hangingNodesPerEdge : G → List Nat
  crowdedCells : G → List Cell

/-- Modelled from the spec: one pass of the hanging-node isolation of §4.2: the
leaf entities adjacent to faces with more than one hanging node are marked for
refinement and the grid is adapted. -/
def isolationPass {G Cell : Type} (ops : GridOps G Cell) (view : HangingNodeView G Cell)
    (g : G) : G :=
  let g := (view.crowdedCells g).foldl (fun g c => ops.exec (.mark 1 c) g) g
  ops.exec .postAdapt (ops.exec .adapt (ops.exec .preAdapt g))

/-- Error kinds of §7 that the models raise. -/
inductive SolveError where
  | ConstraintResolutionError : SolveError
  | LinearSolveFailure : SolveError
  | NonlinearSolveError (residualNorm : ℚ) (iterations : Nat) (linearSolves : Nat) : SolveError
  deriving DecidableEq

/-- Modelled from the spec: the hanging-node isolation of §4.2: passes are
repeated until no face with more than one hanging node remains, bounded by a
maximum pass count; non-convergence is an error, not a partial result. -/
def isolateHangingNodes {G Cell : Type} (ops : GridOps G Cell)
    (view : HangingNodeView G Cell) : Nat → G → Except SolveError G
  | 0, g =>
    if (view.hangingNodesPerEdge g).all (fun k => decide (k ≤ 1)) then .ok g
    else .error .ConstraintResolutionError
  | passes + 1, g =>
    if (view.hangingNodesPerEdge g).all (fun k => decide (k ≤ 1)) then .ok g
    else isolateHangingNodes ops view passes (isolationPass ops view g)

/-- Modelled from the spec: the constructor of the hanging-node constraints
engine, `Constraints constraints(grid,true,bctype)` (poisson.cc line 398; the
class is library code).  By the caller's comment (lines 395-397), with
`adaptToIsolateHangingNodes = true` it "refines the grid until there are less
than two hanging nodes per edge".  The result is the grid it leaves. -/
def HangingNodesDirichletConstraints.construct {G Cell : Type} (ops : GridOps G Cell)
    (view : HangingNodeView G Cell) (maxPasses : Nat) (adaptToIsolateHangingNodes : Bool)
    (grid : G) : Except SolveError G :=
  if adaptToIsolateHangingNodes then isolateHangingNodes ops view maxPasses grid
  else .ok grid

/-! ## Constraints assembly, the Newton solver and the test cases of `main` -/

/-- Modelled from the spec: a DOF on a boundary face, with the local-to-global
map of the face and the local coordinate at which the boundary classifier is
asked (the constraints assembly is library code outside the sources). -/
structure BoundaryDof (n : Nat) (C : Type) where
  dof : Fin n
  global : C → Point
  coord : C

/-- Modelled from the spec: the constraints assembly of §4.2, called in
`poisson` as `Dune::PDELab::constraints(bctype,gfs,cg)` (line 197; library code
outside the sources).  Two sources compose: DOFs on faces that
`BCTypeParam::isDirichlet` classifies Dirichlet get an empty-master relation,
hanging-node DOFs (`hanging`, each with its interpolation masters and weights)
get their interpolation relation; a DOF that is both resolves to the
Dirichlet relation. -/
def assembleConstraints {n : Nat} {C : Type} (hanging : List (Fin n × List (Fin n × ℚ)))
    (boundary : List (BoundaryDof n C)) : Constraints n :=
  let dirichlet : List (Fin n) :=
    ((boundary.filter (fun b => BCTypeParam.isDirichlet b.global b.coord)).map
      (fun b => b.dof)).dedup
  dirichlet.map (fun d => (d, ({ masters := [], offset := 0 } : Relation n))) ++
    (hanging.filter (fun h => decide (h.1 ∉ dirichlet))).map
      (fun h => (h.1, ({ masters := h.2, offset := 0 } : Relation n)))

/-- The settings of a Newton solve (§4.4 `Init`), as the examples make them
(example01b_Q2.hh lines 33-38, example05_QkQk.hh lines 74-79); the absolute
limit is not set by the examples. -/
structure NewtonConfig where
  reassembleThreshold : ℚ
  reduction : ℚ
  absLimit : ℚ
  minLinearReduction : ℚ
  maxIterations : Nat
  lineSearchMaxIterations : Nat

/-- The configuration both examples set: `setReassembleThreshold(0.0)`,
`setReduction(1e-10)`, `setMinLinearReduction(1e-4)`, `setMaxIterations(25)`,
`setLineSearchMaxIterations(10)`. -/
def exampleNewtonConfig (absLimit : ℚ) : NewtonConfig :=
  { reassembleThreshold := 0.0
    reduction := 1e-10
    absLimit := absLimit
    minLinearReduction := 1e-4
    maxIterations := 25
    lineSearchMaxIterations := 10 }

/-- Modelled from the spec: what the Newton solver of §4.4 asks of the problem
(the solver and the operators are library code outside the sources): the
residual norm at an iterate, the linear solve `J·Δx = -r` at an iterate (which
may fail), and the damped update `x + λ·Δx`. -/
structure NewtonProblem (X D : Type) where
  defect : X → ℚ
  linearSolve : X → Option D
  update : X → D → ℚ → X

/-- The running data of a Newton solve: the iterate, the outer iterations
completed and the linear solves made. -/
structure NewtonState (X : Type) where
  x : X
  iterations : Nat
  linearSolves : Nat

/-- Modelled from the spec: the `LineSearch` state of §4.4: from the full step
the step is halved up to `halvings` times while the new residual norm does not
decrease against `prev`; running out of halvings is a failure. -/
def lineSearch {X D : Type} (p : NewtonProblem X D) (x : X) (dx : D) (prev : ℚ) :
    Nat → ℚ → Option X
  | 0, lam =>
    if p.defect (p.update x dx lam) < prev then some (p.update x dx lam) else none
  | halvings + 1, lam =>
    if p.defect (p.update x dx lam) < prev then some (p.update x dx lam)
    else lineSearch p x dx prev halvings (lam / 2)

/-- Modelled from the spec: the loop `Assemble → LinearSolve → LineSearch` of
§4.4 (the solver is library code outside the sources).  Every cycle starts in
`Assemble`: the residual norm `r` of the iterate is computed and the iterate is
returned as `Converged` when `r / r0 < reduction` or `r < absLimit`, `r0` being
the initial residual norm.  Only an iterate that has not converged asks for a
further outer iteration: when the budget is exhausted the solve is `Diverged`,
otherwise `LinearSolve` and `LineSearch` produce the next iterate.  `budget` is
the number of outer iterations still allowed. -/
def newtonLoop {X D : Type} (cfg : NewtonConfig) (p : NewtonProblem X D) (r0 : ℚ) :
    Nat → NewtonState X → Except SolveError (NewtonState X)
  | 0, st =>
    let r := p.defect st.x
    if r / r0 < cfg.reduction ∨ r < cfg.absLimit then .ok st
    else .error (.NonlinearSolveError r st.iterations st.linearSolves)
  | budget + 1, st =>
    let r := p.defect st.x
    if r / r0 < cfg.reduction ∨ r < cfg.absLimit then .ok st
    else
      match p.linearSolve st.x with
      | none => .error (.NonlinearSolveError r st.iterations st.linearSolves)
      | some dx =>
        match lineSearch p st.x dx r cfg.lineSearchMaxIterations 1 with
        | none => .error (.NonlinearSolveError r st.iterations (st.linearSolves + 1))
        | some xn =>
          newtonLoop cfg p r0 budget
            { x := xn, iterations := st.iterations + 1, linearSolves := st.linearSolves + 1 }

/-- Modelled from the spec: `newton.apply()` (example01b_Q2.hh line 39): the
Newton solve of §4.4 from the initial iterate `x0`. -/
def newtonApply {X D : Type} (cfg : NewtonConfig) (p : NewtonProblem X D) (x0 : X) :
    Except SolveError (NewtonState X) :=
  newtonLoop cfg p (p.defect x0) cfg.maxIterations { x := x0, iterations := 0, linearSolves := 0 }

/-- What `main` does in a test case, as far as the grid and the objects built
from it are concerned. -/
inductive MainEvent where
  /-- The calls `grid.setRefinementType`, `grid.setClosureType`. -/
  | configureGrid : MainEvent
  /-- The call `grid.globalRefine(levels)`. -/
  | globalRefine (levels : Nat) : MainEvent
  /-- The call `grid.leafView()`. -/
  | leafView : MainEvent
  /-- The call `doSomeRandomRefinement<Grid,Iterator>( grid )`. -/
  | randomRefinement : MainEvent
  /-- The declaration `FEM fem(gv)` (`fromGridView = true`) or `FEM fem` (`false`). -/
  | makeFem (fromGridView : Bool) : MainEvent
  /-- The declaration `Constraints constraints(grid,adaptToIsolateHangingNodes,bctype)`. -/
  | makeConstraintsEngine (adaptToIsolateHangingNodes : Bool) : MainEvent
  /-- The declaration `GFS gfs(gv,fem,con)` in `poisson` (line 190). -/
  | makeGridFunctionSpace : MainEvent
  /-- Lines 192-261 of `poisson`: constraints, assembly, solve, back-transformation. -/
  | assembleAndSolve : MainEvent
  /-- The call `vtkwriter.write` in `poisson` (line 271). -/
  | vtkWrite : MainEvent
  deriving DecidableEq

/-- The events of a call of `poisson` (lines 175-272). -/
def poissonEvents : List MainEvent :=
  [.makeGridFunctionSpace, .assembleAndSolve, .vtkWrite]

/-- The eleven test cases of `main` (poisson.cc lines 329-909) in program order,
with `HANGING_NODES_REFINEMENT` defined as on line 51. -/
def testcases : List (List MainEvent) :=
  [ -- 1: ALUGrid 2D triangular cells, Pk2D elements
    [.globalRefine 4, .leafView, .randomRefinement, .makeFem true,
      .makeConstraintsEngine true] ++ poissonEvents,
    -- 2: ALUGrid 3D cubical cells, Q1 elements
    [.globalRefine 1, .leafView, .randomRefinement, .makeFem false,
      .makeConstraintsEngine true] ++ poissonEvents,
    -- 3: ALUGrid 3D tetrahedral cells, Pk3D elements
    [.globalRefine 2, .leafView, .makeFem true] ++ poissonEvents,
    -- 4: YaspGrid 2D, Q1 elements
    [.globalRefine 6, .leafView, .makeFem false] ++ poissonEvents,
    -- 5: YaspGrid 2D, Q2 elements
    [.globalRefine 3, .leafView, .makeFem false] ++ poissonEvents,
    -- 6: YaspGrid 3D, Q1 elements
    [.globalRefine 3, .leafView, .makeFem false] ++ poissonEvents,
    -- 7: UG 2D triangular cells, Pk2D elements
    [.configureGrid, .globalRefine 4, .leafView, .randomRefinement, .makeFem true,
      .makeConstraintsEngine true] ++ poissonEvents,
    -- 8: UG 2D rectangular cells, Q1 elements
    [.configureGrid, .globalRefine 4, .leafView, .randomRefinement, .makeFem false,
      .makeConstraintsEngine true] ++ poissonEvents,
    -- 9: UG 3D cubical cells, Q1 elements
    [.configureGrid, .globalRefine 1, .leafView, .randomRefinement, .makeFem false,
      .makeConstraintsEngine true] ++ poissonEvents,
    -- 10: UG 3D tetrahedral cells, Pk3D elements
    [.configureGrid, .globalRefine 1, .leafView, .randomRefinement, .makeFem true,
      .makeConstraintsEngine true] ++ poissonEvents,
    -- 11: Alberta 2D triangular cells, Pk2D elements
    [.globalRefine 8, .leafView, .makeFem true] ++ poissonEvents ]

/-- The mesh-adaptation commands: `globalRefine`, the cycles of
`doSomeRandomRefinement`, and the isolating refinement of the hanging-node
constraints constructor. -/
def MainEvent.isAdaptation : MainEvent → Bool
  | .globalRefine _ => true
  | .randomRefinement => true
  | .makeConstraintsEngine true => true
  | _ => false

/-- The constructions from the grid view: a finite-element map built from `gv`
and the grid function space. -/
def MainEvent.isBuiltFromGridView : MainEvent → Bool
  | .makeFem true => true
  | .makeGridFunctionSpace => true
  | _ => false

/-- Whether some event selected by `after` is followed, later in the list, by
an event selected by `cmd`. -/
def followedBy (after cmd : MainEvent → Bool) : List MainEvent → Bool
  | [] => false
  | e :: es => (after e && es.any cmd) || followedBy after cmd es

/-! ## The source term `F` -/

/-- `F::evaluateGlobal` (poisson.cc lines 78-86): `y` is the content of the
output reference on entry, the result its content on return.  The assignment
`y=0` of line 85 follows the `if`/`else` of lines 81-84. -/
def F.evaluateGlobal (x : Point) (y : ℚ) : ℚ := Id.run do
  let mut y := y
  if x 0 > 0.25 ∧ x 0 < 0.375 ∧ x 1 > 0.25 ∧ x 1 < 0.375 then
    y := 50.0
  else
    y := 0.0
  y := 0
  return y

/-! ## Theorems -/

/-- C1: `BCTypeParam::isDirichlet` returns false exactly when the global point
`x` has `x[1] < 1e-6`, or `x[1] > 1 - 1e-6`, or (`x[0] > 1 - 1e-6` and
`x[1] > 0.5 + 1e-6`), true in every other case, and two calls whose global
points coincide return the same value. -/
theorem isDirichlet_characterisation {C : Type} (global : C → Point) (coord : C) :
    (BCTypeParam.isDirichlet global coord = false ↔
      (global coord 1 < 1 / 10 ^ 6 ∨ global coord 1 > 1 - 1 / 10 ^ 6 ∨
        (global coord 0 > 1 - 1 / 10 ^ 6 ∧ global coord 1 > 1 / 2 + 1 / 10 ^ 6))) ∧
    (BCTypeParam.isDirichlet global coord = true ↔
      ¬ (global coord 1 < 1 / 10 ^ 6 ∨ global coord 1 > 1 - 1 / 10 ^ 6 ∨
        (global coord 0 > 1 - 1 / 10 ^ 6 ∧ global coord 1 > 1 / 2 + 1 / 10 ^ 6))) ∧
    (∀ (D : Type) (global2 : D → Point) (coord2 : D),
      global2 coord2 = global coord →
        BCTypeParam.isDirichlet global2 coord2 = BCTypeParam.isDirichlet global coord) := by
  have e1 : (1e-6 : ℚ) = 1 / 10 ^ 6 := by norm_num
  have e2 : (1.0 : ℚ) = 1 := by norm_num
  have e3 : (0.5 : ℚ) = 1 / 2 := by norm_num
  refine ⟨?_, ?_, ?_⟩
  · simp only [BCTypeParam.isDirichlet, e1, e2, e3]
    by_cases h1 : global coord 1 < 1 / 10 ^ 6 ∨ global coord 1 > 1 - 1 / 10 ^ 6
    · rw [if_pos h1]
      simp only [true_iff]
      rcases h1 with h | h
      · exact Or.inl h
      · exact Or.inr (Or.inl h)
    · rw [if_neg h1]
      by_cases h2 : global coord 0 > 1 - 1 / 10 ^ 6 ∧ global coord 1 > 1 / 2 + 1 / 10 ^ 6
      · rw [if_pos h2]
        simp only [true_iff]
        exact Or.inr (Or.inr h2)
      · rw [if_neg h2]
        constructor
        · intro h; cases h
        · rintro (h | h | h)
          · exact absurd (Or.inl h) h1
          · exact absurd (Or.inr h) h1
          · exact absurd h h2
  · simp only [BCTypeParam.isDirichlet, e1, e2, e3]
    by_cases h1 : global coord 1 < 1 / 10 ^ 6 ∨ global coord 1 > 1 - 1 / 10 ^ 6
    · rw [if_pos h1]
      constructor
      · intro h; cases h
      · intro h
        rcases h1 with h1 | h1
        · exact absurd (Or.inl h1) h
        · exact absurd (Or.inr (Or.inl h1)) h
    · rw [if_neg h1]
      by_cases h2 : global coord 0 > 1 - 1 / 10 ^ 6 ∧ global coord 1 > 1 / 2 + 1 / 10 ^ 6
      · rw [if_pos h2]
        constructor
        · intro h; cases h
        · intro h; exact absurd (Or.inr (Or.inr h2)) h
      · rw [if_neg h2]
        simp only [true_iff]
        rintro (h | h | h)
        · exact h1 (Or.inl h)
        · exact h1 (Or.inr h)
        · exact h2 h
  · intro D global2 coord2 h
    simp only [BCTypeParam.isDirichlet, h]

/-- Witness for C1: the midpoint of the left edge, `(0, 1/2)`, is classified
Dirichlet. -/
theorem isDirichlet_characterisation_witness :
    BCTypeParam.isDirichlet (fun c : ℚ => fun i => if i = 0 then 0 else c) (1 / 2) = true :=
  (isDirichlet_characterisation (fun c : ℚ => fun i => if i = 0 then 0 else c) (1 / 2)).2.1.mpr
    (by norm_num)

/-- C2 as stated fails.  At the corner `(1, 1)`, which lies on the segment
`x[0] > 1 - 1e-6`, `x[1] > 0.5 + 1e-6`, the flux is set to `0`, not `-5`; at the
point `(0, 1/2)`, off the segment, a prior content `7` of `y` is still there on
return, not `0`. -/
theorem J_evaluateGlobal_counterexample :
    ((1 : ℚ) > 1 - 1 / 10 ^ 6 ∧ (1 : ℚ) > 1 / 2 + 1 / 10 ^ 6 ∧
      J.evaluateGlobal (fun _ => 1) 7 = 0 ∧ (0 : ℚ) ≠ -5) ∧
    (¬ ((0 : ℚ) > 1 - 1 / 10 ^ 6 ∧ (1 / 2 : ℚ) > 1 / 2 + 1 / 10 ^ 6) ∧
      J.evaluateGlobal (fun i => if i = 0 then 0 else 1 / 2) 7 = 7 ∧ (7 : ℚ) ≠ 0) := by
  refine ⟨⟨by norm_num, by norm_num, ?_, by norm_num⟩, ⟨by norm_num, ?_, by norm_num⟩⟩
  · simp only [J.evaluateGlobal]; norm_num
  · simp only [J.evaluateGlobal]; norm_num

/-- C2, amended: for every point `x` and prior content `y`, the flux is set to
`0` when `x[1] < 1e-6` or `x[1] > 1 - 1e-6`, to `-5` when `x[0] > 1 - 1e-6` and
`0.5 + 1e-6 < x[1] ≤ 1 - 1e-6`, and is left at its prior content at every other
point. -/
theorem J_evaluateGlobal_cases (x : Point) (y : ℚ) :
    ((x 1 < 1 / 10 ^ 6 ∨ x 1 > 1 - 1 / 10 ^ 6) → J.evaluateGlobal x y = 0) ∧
    ((x 0 > 1 - 1 / 10 ^ 6 ∧ 1 / 2 + 1 / 10 ^ 6 < x 1 ∧ x 1 ≤ 1 - 1 / 10 ^ 6) →
      J.evaluateGlobal x y = -5) ∧
    (¬ (x 1 < 1 / 10 ^ 6 ∨ x 1 > 1 - 1 / 10 ^ 6) →
      ¬ (x 0 > 1 - 1 / 10 ^ 6 ∧ 1 / 2 + 1 / 10 ^ 6 < x 1) → J.evaluateGlobal x y = y) := by
  have e1 : (1e-6 : ℚ) = 1 / 10 ^ 6 := by norm_num
  have e2 : (1.0 : ℚ) = 1 := by norm_num
  have e3 : (0.5 : ℚ) = 1 / 2 := by norm_num
  have e4 : (5.0 : ℚ) = 5 := by norm_num
  refine ⟨?_, ?_, ?_⟩
  · intro h
    simp only [J.evaluateGlobal, e1, e2, e3, e4]
    rw [if_pos h]
  · rintro ⟨h0, h1, h2⟩
    have hn : ¬ (x 1 < 1 / 10 ^ 6 ∨ x 1 > 1 - 1 / 10 ^ 6) := by
      rintro (h | h)
      · have : (1 : ℚ) / 10 ^ 6 < 1 / 2 + 1 / 10 ^ 6 := by norm_num
        linarith
      · linarith
    simp only [J.evaluateGlobal, e1, e2, e3, e4]
    rw [if_neg hn, if_pos ⟨h0, h1⟩]
  · intro hn hs
    simp only [J.evaluateGlobal, e1, e2, e3, e4]
    rw [if_neg hn, if_neg hs]

/-- Witness for C2 (amended): the three cases at `(1, 1)`, `(1, 3/4)` and
`(0, 1/2)` with prior content `7`. -/
theorem J_evaluateGlobal_cases_witness :
    J.evaluateGlobal (fun _ => 1) 7 = 0 ∧
    J.evaluateGlobal (fun i => if i = 0 then 1 else 3 / 4) 7 = -5 ∧
    J.evaluateGlobal (fun i => if i = 0 then 0 else 1 / 2) 7 = 7 :=
  ⟨(J_evaluateGlobal_cases (fun _ => 1) 7).1 (by norm_num),
   (J_evaluateGlobal_cases (fun i => if i = 0 then 1 else 3 / 4) 7).2.1 (by norm_num),
   (J_evaluateGlobal_cases (fun i => if i = 0 then 0 else 1 / 2) 7).2.2
     (by norm_num) (by norm_num)⟩

/-- C3 as stated fails.  With `dtmax = 1`: a step of size `dt = 1 - 1e-9` is
followed by a step of the same size, while `min (dt * 1.1) dtmax = 1`; and a
step of size `dt = 2` is followed by a step of size `2`, while
`min (dt * 1.1) dtmax = 1`. -/
theorem nextDt_counterexample :
    (∃ s', stepBody (fun _ _ _ u => (Except.ok u : Except Unit Unit)) 1
        { time := 0, dt := 1 - 1 / 10 ^ 9, uold := (), unew := (), files := [()] } = .ok s' ∧
      s'.dt = 1 - 1 / 10 ^ 9 ∧ s'.dt ≠ min ((1 - 1 / 10 ^ 9) * (11 / 10)) 1) ∧
    (∃ s', stepBody (fun _ _ _ u => (Except.ok u : Except Unit Unit)) 1
        { time := 0, dt := 2, uold := (), unew := (), files := [()] } = .ok s' ∧
      s'.dt = 2 ∧ s'.dt ≠ min (2 * (11 / 10)) 1) := by
  constructor
  · refine ⟨_, rfl, ?_, ?_⟩
    · simp only [nextDt]; norm_num
    · simp only [nextDt]; norm_num
  · refine ⟨_, rfl, ?_, ?_⟩
    · simp only [nextDt]; norm_num
    · simp only [nextDt]; norm_num

/-- C3, amended: after every completed step of the time loop, the step size
used for the next step is `min (dt * 1.1) dtmax` when `dt < dtmax - 1e-8`, and
is `dt` unchanged otherwise. -/
theorem stepBody_dt {E U : Type} (osmApply : ℚ → ℚ → U → U → Except E U) (dtmax : ℚ)
    (s s' : LoopState U) (h : stepBody osmApply dtmax s = .ok s') :
    s'.dt = if s.dt < dtmax - 1 / 10 ^ 8 then min (s.dt * (11 / 10)) dtmax else s.dt := by
  have e1 : (1e-8 : ℚ) = 1 / 10 ^ 8 := by norm_num
  have e2 : (1.1 : ℚ) = 11 / 10 := by norm_num
  have hm : ∀ a b : ℚ, stdMin a b = min a b := by
    intro a b
    unfold stdMin
    by_cases hb : b < a
    · rw [if_pos hb, min_eq_right (le_of_lt hb)]
    · rw [if_neg hb, min_eq_left (not_lt.mp hb)]
  unfold stepBody at h
  cases hr : osmApply s.time s.dt s.uold s.unew with
  | error e => rw [hr] at h; cases h
  | ok u =>
    rw [hr] at h
    injection h with h
    subst h
    simp only [nextDt, e1, e2, hm]

/-- Witness for C3 (amended): from `dt = 1/2` with `dtmax = 1` the next step
size is `min (1/2 * 11/10) 1`. -/
theorem stepBody_dt_witness :
    ({ time := 1 / 2, dt := nextDt (1 / 2) 1, uold := (), unew := (), files := [(), ()] } :
        LoopState Unit).dt =
      if (1 / 2 : ℚ) < 1 - 1 / 10 ^ 8 then min ((1 / 2 : ℚ) * (11 / 10)) 1 else 1 / 2 :=
  stepBody_dt (fun _ _ _ u => (Except.ok u : Except Unit Unit)) 1
    { time := 0, dt := 1 / 2, uold := (), unew := (), files := [()] }
    { time := 1 / 2, dt := nextDt (1 / 2) 1, uold := (), unew := (), files := [(), ()] }
    (by simp [stepBody])

/-! ### The time loop -/

/-- A run of `n` passes that ends with the loop condition still true has
written `n` files. -/
theorem timeLoop_outOfFuel_files {E U : Type} (osmApply : ℚ → ℚ → U → U → Except E U)
    (dtmax tend : ℚ) (n : Nat) :
    ∀ (s0 s : LoopState U), timeLoop osmApply dtmax tend n s0 = .outOfFuel s →
      s.files.length = s0.files.length + n := by
  induction n with
  | zero =>
    intro s0 s h
    unfold timeLoop at h
    split at h
    · injection h with h; subst h; rfl
    · cases h
  | succ n ih =>
    intro s0 s h
    unfold timeLoop at h
    split at h
    · cases hb : stepBody osmApply dtmax s0 with
      | error e => rw [hb] at h; cases h
      | ok s1 =>
        rw [hb] at h
        have hl := ih s1 s h
        unfold stepBody at hb
        cases hr : osmApply s0.time s0.dt s0.uold s0.unew with
        | error e => rw [hr] at hb; cases hb
        | ok u =>
          rw [hr] at hb
          injection hb with hb
          subst hb
          simp only [List.length_append, List.length_singleton] at hl
          omega
    · cases h

/-- A failing `osm.apply` at the state reached after `n` completed passes ends
the loop there, whatever the number of passes still allowed. -/
theorem timeLoop_failed_of_outOfFuel {E U : Type} (osmApply : ℚ → ℚ → U → U → Except E U)
    (dtmax tend : ℚ) (extra : Nat) (s : LoopState U) (e : E)
    (hfail : osmApply s.time s.dt s.uold s.unew = .error e) (n : Nat) :
    ∀ s0 : LoopState U, timeLoop osmApply dtmax tend n s0 = .outOfFuel s →
      timeLoop osmApply dtmax tend (n + (extra + 1)) s0 = .failed e s := by
  induction n with
  | zero =>
    intro s0 h
    unfold timeLoop at h
    split at h
    · rename_i hc
      injection h with h
      subst h
      rw [Nat.zero_add]
      unfold timeLoop
      rw [if_pos hc]
      simp only [stepBody, hfail]
    · cases h
  | succ n ih =>
    intro s0 h
    unfold timeLoop at h
    split at h
    · rename_i hc
      cases hb : stepBody osmApply dtmax s0 with
      | error e1 => rw [hb] at h; cases h
      | ok s1 =>
        rw [hb] at h
        have hrec := ih s1 h
        have hn : n + 1 + (extra + 1) = (n + (extra + 1)) + 1 := by omega
        rw [hn]
        unfold timeLoop
        rw [if_pos hc]
        simp only [hb]
        exact hrec
    · cases h

/-- C10: if `osm.apply` fails in the pass that follows `n` completed passes of
the time loop of `example05_QkQk`, the function ends with that failure however
many further passes would be allowed: no step is retried or attempted
afterwards, the files written are the initial one and those of the `n`
completed passes, and `time`, `dt` and `uold` are those on entry to the
failing pass. -/
theorem example05_failure_propagates {E U : Type}
    (osmApply : ℚ → ℚ → U → U → Except E U) (u0 : U) (dtstart dtmax tend : ℚ)
    (n extra : Nat) (s : LoopState U) (e : E)
    (hreach : example05_QkQk osmApply u0 dtstart dtmax tend n = .outOfFuel s)
    (hfail : osmApply s.time s.dt s.uold s.unew = .error e) :
    example05_QkQk osmApply u0 dtstart dtmax tend (n + (extra + 1)) = .failed e s ∧
      s.files.length = n + 1 := by
  unfold example05_QkQk at hreach ⊢
  refine ⟨timeLoop_failed_of_outOfFuel osmApply dtmax tend extra s e hfail n _ hreach, ?_⟩
  have h := timeLoop_outOfFuel_files osmApply dtmax tend n _ s hreach
  simp only [initialState, List.length_singleton] at h
  omega

/-- Witness for C10: `osm.apply` succeeds at time `0` and fails from time `1`
on; with `dtstart = dtmax = 1` and `tend = 3` the run ends in the second pass
with two files written, however much fuel is left. -/
theorem example05_failure_propagates_witness :
    example05_QkQk
        (fun t _ _ (u : Unit) => if t < 1 then Except.ok u else Except.error (7 : Nat))
        () 1 1 3 (1 + (5 + 1)) =
      .failed 7 { time := 1, dt := 1, uold := (), unew := (), files := [(), ()] } ∧
    ({ time := 1, dt := 1, uold := (), unew := (), files := [(), ()] } :
        LoopState Unit).files.length = 1 + 1 :=
  example05_failure_propagates
    (fun t _ _ (u : Unit) => if t < 1 then Except.ok u else Except.error (7 : Nat))
    () 1 1 3 1 5 { time := 1, dt := 1, uold := (), unew := (), files := [(), ()] }
    7
    (by
      simp only [example05_QkQk, timeLoop, stepBody, initialState, nextDt]
      norm_num)
    (by norm_num)

/-! ### Constraints -/

/-- A fold over the entries leaves a DOF alone when no step touches it. -/
theorem foldl_entries_frame {n : Nat} (f : Vec n → Fin n × Relation n → Vec n) (d : Fin n)
    (hf : ∀ x e, (e.1 = d → e.2.masters = []) → f x e d = x d) :
    ∀ (l : Constraints n) (x : Vec n), (∀ e ∈ l, e.1 = d → e.2.masters = []) →
      l.foldl f x d = x d := by
  intro l
  induction l with
  | nil => intro x _; rfl
  | cons e l ih =>
    intro x h
    rw [List.foldl_cons, ih (f x e) (fun e1 he1 => h e1 (List.mem_cons_of_mem _ he1))]
    exact hf x e (h e (List.mem_cons_self _ _))

/-- One step of `backtransform` changes at most the DOF of a shifted entry. -/
theorem backtransform_step_frame {n : Nat} (d : Fin n) (x : Vec n) (e : Fin n × Relation n)
    (h : e.1 = d → e.2.masters = []) :
    (if e.2.masters.isEmpty then x else Function.update x e.1 (e.2.value x)) d = x d := by
  by_cases hm : e.2.masters = []
  · simp [hm]
  · have hne : e.1 ≠ d := fun hd => hm (h hd)
    simp [hm, Function.update_noteq (Ne.symm hne)]

/-- One step of `set_shifted_dofs` changes at most the DOF of a shifted entry. -/
theorem set_shifted_step_frame {n : Nat} (v : ℚ) (d : Fin n) (x : Vec n)
    (e : Fin n × Relation n) (h : e.1 = d → e.2.masters = []) :
    (if e.2.masters.isEmpty then x else Function.update x e.1 v) d = x d := by
  by_cases hm : e.2.masters = []
  · simp [hm]
  · have hne : e.1 ≠ d := fun hd => hm (h hd)
    simp [hm, Function.update_noteq (Ne.symm hne)]

/-- `backtransform` leaves every DOF that is not shifted as it is. -/
theorem backtransform_of_not_shifted {n : Nat} (cg : Constraints n) (x : Vec n) (d : Fin n)
    (h : ∀ e ∈ cg, e.1 = d → e.2.masters = []) : backtransform cg x d = x d :=
  foldl_entries_frame _ d (fun x e he => backtransform_step_frame d x e he) cg x h

/-- `set_shifted_dofs` leaves every DOF that is not shifted as it is. -/
theorem set_shifted_dofs_of_not_shifted {n : Nat} (cg : Constraints n) (v : ℚ) (x : Vec n)
    (d : Fin n) (h : ∀ e ∈ cg, e.1 = d → e.2.masters = []) :
    set_shifted_dofs cg v x d = x d :=
  foldl_entries_frame _ d (fun x e he => set_shifted_step_frame v d x e he) cg x h

/-- Not being shifted, spelled out entry by entry. -/
theorem not_isShifted_iff {n : Nat} (cg : Constraints n) (d : Fin n) :
    ¬ isShifted cg d ↔ ∀ e ∈ cg, e.1 = d → e.2.masters = [] := by
  unfold isShifted
  constructor
  · intro h e he hd
    by_contra hm
    exact h ⟨e, he, hd, hm⟩
  · rintro h ⟨e, he, hd, hm⟩
    exact hm (h e he hd)

/-- The value of a relation depends on the vector only at its masters. -/
theorem Relation.value_congr {n : Nat} (r : Relation n) (x y : Vec n)
    (h : ∀ mw ∈ r.masters, x mw.1 = y mw.1) : r.value x = r.value y := by
  unfold Relation.value
  congr 2
  apply List.map_congr_left
  intro mw hmw
  rw [h mw hmw]

/-- With unique keys, `backtransform` gives a shifted DOF whose masters are not
shifted the value of its relation on the incoming vector. -/
theorem backtransform_of_shifted {n : Nat} (d : Fin n) (rel : Relation n)
    (hne : rel.masters ≠ []) :
    ∀ (l : Constraints n) (x : Vec n), (l.map Prod.fst).Nodup → (d, rel) ∈ l →
      (∀ mw ∈ rel.masters, ∀ e ∈ l, e.1 = mw.1 → e.2.masters = []) →
      backtransform l x d = rel.value x := by
  intro l
  induction l with
  | nil => intro x _ hmem; cases hmem
  | cons e l ih =>
    intro x hnd hmem hm
    rw [List.map_cons, List.nodup_cons] at hnd
    unfold backtransform
    rw [List.foldl_cons]
    rcases List.mem_cons.mp hmem with heq | hin
    · subst heq
      have hfr : ∀ e1 ∈ l, e1.1 = d → e1.2.masters = [] := by
        intro e1 he1 hd
        have hk : e1.1 ∈ l.map Prod.fst := List.mem_map_of_mem Prod.fst he1
        rw [hd] at hk
        exact absurd hk hnd.1
      have := backtransform_of_not_shifted l
        (if rel.masters.isEmpty then x else Function.update x d (rel.value x)) d hfr
      unfold backtransform at this
      rw [this]
      simp [hne]
    · have hrec := ih
        (if e.2.masters.isEmpty then x else Function.update x e.1 (e.2.value x)) hnd.2 hin
        (fun mw hmw e1 he1 => hm mw hmw e1 (List.mem_cons_of_mem _ he1))
      unfold backtransform at hrec
      rw [hrec]
      apply Relation.value_congr
      intro mw hmw
      exact backtransform_step_frame mw.1 x e (hm mw hmw e (List.mem_cons_self _ _))

/-- Two vectors that agree off the shifted DOFs `S`, and on those of them that
no remaining entry overwrites, are mapped to one vector. -/
theorem backtransform_agree {n : Nat} (S : Fin n → Prop) :
    ∀ (l : Constraints n),
      (∀ e ∈ l, e.2.masters ≠ [] → S e.1 ∧ ∀ mw ∈ e.2.masters, ¬ S mw.1) →
      ∀ (x y : Vec n), (∀ m, ¬ S m → x m = y m) →
        (∀ d, S d → (∀ e ∈ l, e.1 = d → e.2.masters = []) → x d = y d) →
        backtransform l x = backtransform l y := by
  intro l
  induction l with
  | nil =>
    intro _ x y h3 h4
    funext d
    by_cases hS : S d
    · exact h4 d hS (fun e he => absurd he (List.not_mem_nil e))
    · exact h3 d hS
  | cons e l ih =>
    intro h1 x y h3 h4
    have h1l : ∀ e1 ∈ l, e1.2.masters ≠ [] → S e1.1 ∧ ∀ mw ∈ e1.2.masters, ¬ S mw.1 :=
      fun e1 he1 => h1 e1 (List.mem_cons_of_mem _ he1)
    unfold backtransform
    rw [List.foldl_cons, List.foldl_cons]
    by_cases hm : e.2.masters = []
    · have hrec := ih h1l x y h3 (by
        intro d hS hd
        apply h4 d hS
        intro e1 he1 hd1
        rcases List.mem_cons.mp he1 with heq | hin
        · rw [heq]; exact hm
        · exact hd e1 hin hd1)
      unfold backtransform at hrec
      simpa [hm] using hrec
    · obtain ⟨hSe, hmast⟩ := h1 e (List.mem_cons_self _ _) hm
      have hv : e.2.value x = e.2.value y :=
        Relation.value_congr e.2 x y (fun mw hmw => h3 mw.1 (hmast mw hmw))
      have hrec := ih h1l (Function.update x e.1 (e.2.value x))
        (Function.update y e.1 (e.2.value y)) (by
          intro m hSm
          have hne : m ≠ e.1 := fun h => hSm (h ▸ hSe)
          rw [Function.update_noteq hne, Function.update_noteq hne]
          exact h3 m hSm) (by
          intro d hS hd
          by_cases hde : d = e.1
          · rw [hde, Function.update_same, Function.update_same]
            exact hv
          · rw [Function.update_noteq hde, Function.update_noteq hde]
            apply h4 d hS
            intro e1 he1 hd1
            rcases List.mem_cons.mp he1 with heq | hin
            · rw [heq] at hd1
              exact absurd hd1.symm hde
            · exact hd e1 hin hd1)
      unfold backtransform at hrec
      simpa [hm] using hrec

/-! ### `poisson` -/

/-- C5: at every Dirichlet-constrained DOF `d` (an entry of the container with
no masters) the vector produced by `poisson` holds the interpolated value of
`g`, provided the linear solve returns a zero correction on `d`. -/
theorem poisson_dirichlet_value {n : Nat} (cg : Constraints n)
    (interpolate_g : Vec n → Vec n)
    (jacobian : Vec n → Matrix (Fin n) (Fin n) ℚ) (residual : Vec n → Vec n)
    (solve : Matrix (Fin n) (Fin n) ℚ → Vec n → Vec n → Vec n)
    (d : Fin n) (rel : Relation n)
    (hnd : (cg.map Prod.fst).Nodup) (hmem : (d, rel) ∈ cg) (hdir : rel.masters = [])
    (hdx : poisson_dx cg interpolate_g jacobian residual solve d = 0) :
    poisson cg interpolate_g jacobian residual solve d = interpolate_g (fun _ => 0) d := by
  have e0 : (0.0 : ℚ) = 0 := by norm_num
  have hfr : ∀ e ∈ cg, e.1 = d → e.2.masters = [] := by
    intro e he hd
    have hfst : ∀ (l : Constraints n), (l.map Prod.fst).Nodup → (d, rel) ∈ l → e ∈ l →
        e = (d, rel) := by
      intro l
      induction l with
      | nil => intro _ h; cases h
      | cons a l ih =>
        intro hn h1 h2
        rw [List.map_cons, List.nodup_cons] at hn
        rcases List.mem_cons.mp h1 with h1 | h1
        · rcases List.mem_cons.mp h2 with h2 | h2
          · rw [h2, h1]
          · have hk : e.1 ∈ l.map Prod.fst := List.mem_map_of_mem Prod.fst h2
            rw [hd, show d = a.1 from by rw [← h1]] at hk
            exact absurd hk hn.1
        · rcases List.mem_cons.mp h2 with h2 | h2
          · have hk : (d, rel).1 ∈ l.map Prod.fst := List.mem_map_of_mem Prod.fst h1
            rw [show (d, rel).1 = a.1 from by rw [← h2]; exact hd.symm] at hk
            exact absurd hk hn.1
          · exact ih hn.2 h1 h2
    rw [hfst cg hnd hmem he]
    exact hdir
  simp only [poisson]
  rw [backtransform_of_not_shifted cg _ d hfr]
  simp only [Pi.add_apply]
  rw [hdx, set_shifted_dofs_of_not_shifted cg _ _ d hfr]
  simp only [poisson_x0]
  rw [backtransform_of_not_shifted cg _ d hfr, set_shifted_dofs_of_not_shifted cg _ _ d hfr]
  simp only [e0, zero_add]

/-- Witness for C5: three DOFs, DOF `0` Dirichlet, DOF `2` hanging between `0`
and `1`; the solver returns a correction that vanishes on DOF `0`. -/
theorem poisson_dirichlet_value_witness :
    poisson
        [((0 : Fin 3), ({ masters := [], offset := 0 } : Relation 3)),
         ((2 : Fin 3), ({ masters := [(0, 1 / 2), (1, 1 / 2)], offset := 0 } : Relation 3))]
        (fun _ i => if i = 0 then 4 else 6) (fun _ => 1) (fun x => x)
        (fun _ _ _ i => if i = 1 then 10 else 0) 0 =
      (fun (_ : Vec 3) (i : Fin 3) => if i = 0 then (4 : ℚ) else 6) (fun _ => 0) 0 :=
  poisson_dirichlet_value
    [((0 : Fin 3), ({ masters := [], offset := 0 } : Relation 3)),
     ((2 : Fin 3), ({ masters := [(0, 1 / 2), (1, 1 / 2)], offset := 0 } : Relation 3))]
    (fun _ i => if i = 0 then 4 else 6) (fun _ => 1) (fun x => x)
    (fun _ _ _ i => if i = 1 then 10 else 0) 0 { masters := [], offset := 0 }
    (by decide) (by simp) rfl (by simp [poisson_dx])

/-- C6: with unique keys, at every hanging-node DOF `d` whose relation has
offset `0` and masters that are not themselves shifted, the vector `poisson`
hands to the VTK writer satisfies `x[d] = Σ w_i * x[m_i]`; and every DOF that is
not shifted holds `x0 + dx`. -/
theorem poisson_hanging_value {n : Nat} (cg : Constraints n)
    (interpolate_g : Vec n → Vec n)
    (jacobian : Vec n → Matrix (Fin n) (Fin n) ℚ) (residual : Vec n → Vec n)
    (solve : Matrix (Fin n) (Fin n) ℚ → Vec n → Vec n → Vec n)
    (d : Fin n) (rel : Relation n)
    (hnd : (cg.map Prod.fst).Nodup) (hmem : (d, rel) ∈ cg) (hne : rel.masters ≠ [])
    (hoff : rel.offset = 0) (hm : ∀ mw ∈ rel.masters, ¬ isShifted cg mw.1) :
    poisson cg interpolate_g jacobian residual solve d =
        (rel.masters.map
          (fun mw => mw.2 * poisson cg interpolate_g jacobian residual solve mw.1)).sum ∧
      ∀ u, ¬ isShifted cg u →
        poisson cg interpolate_g jacobian residual solve u =
          poisson_x0 cg interpolate_g u +
            poisson_dx cg interpolate_g jacobian residual solve u := by
  have hm1 : ∀ mw ∈ rel.masters, ∀ e ∈ cg, e.1 = mw.1 → e.2.masters = [] :=
    fun mw hmw => (not_isShifted_iff cg mw.1).mp (hm mw hmw)
  constructor
  · simp only [poisson]
    rw [backtransform_of_shifted d rel hne cg _ hnd hmem hm1]
    unfold Relation.value
    rw [hoff, zero_add]
    congr 1
    apply List.map_congr_left
    intro mw hmw
    rw [backtransform_of_not_shifted cg _ mw.1 (hm1 mw hmw)]
  · intro u hu
    have hu1 := (not_isShifted_iff cg u).mp hu
    simp only [poisson]
    rw [backtransform_of_not_shifted cg _ u hu1]
    simp only [Pi.add_apply]
    rw [set_shifted_dofs_of_not_shifted cg _ _ u hu1]
    ring

/-- Witness for C6: three DOFs, DOF `0` Dirichlet, DOF `2` hanging between `0`
and `1` with weights `1/2`. -/
theorem poisson_hanging_value_witness :
    poisson
        [((0 : Fin 3), ({ masters := [], offset := 0 } : Relation 3)),
         ((2 : Fin 3), ({ masters := [(0, 1 / 2), (1, 1 / 2)], offset := 0 } : Relation 3))]
        (fun _ i => if i = 0 then 4 else 6) (fun _ => 1) (fun x => x)
        (fun _ _ _ i => if i = 1 then 10 else 0) 2 =
      ([((0 : Fin 3), (1 / 2 : ℚ)), (1, 1 / 2)].map (fun mw => mw.2 *
        poisson
          [((0 : Fin 3), ({ masters := [], offset := 0 } : Relation 3)),
           ((2 : Fin 3), ({ masters := [(0, 1 / 2), (1, 1 / 2)], offset := 0 } : Relation 3))]
          (fun _ i => if i = 0 then 4 else 6) (fun _ => 1) (fun x => x)
          (fun _ _ _ i => if i = 1 then 10 else 0) mw.1)).sum :=
  (poisson_hanging_value
    [((0 : Fin 3), ({ masters := [], offset := 0 } : Relation 3)),
     ((2 : Fin 3), ({ masters := [(0, 1 / 2), (1, 1 / 2)], offset := 0 } : Relation 3))]
    (fun _ i => if i = 0 then 4 else 6) (fun _ => 1) (fun x => x)
    (fun _ _ _ i => if i = 1 then 10 else 0) 2
    { masters := [(0, 1 / 2), (1, 1 / 2)], offset := 0 }
    (by decide) (by simp) (by simp) rfl (by
      intro mw hmw
      rw [not_isShifted_iff]
      intro e he hd
      simp only [List.mem_cons, List.mem_singleton, List.not_mem_nil, or_false] at hmw he
      rcases he with rfl | rfl
      · rfl
      · rcases hmw with rfl | rfl
        · exact absurd hd (by decide)
        · exact absurd hd (by decide))).1

/-- C7: for every constraint set in which no master DOF is itself shifted and
every coefficient vector `x`, `backtransform (backtransform x) = backtransform x`. -/
theorem backtransform_idempotent {n : Nat} (cg : Constraints n)
    (hm : ∀ e ∈ cg, ∀ mw ∈ e.2.masters, ¬ isShifted cg mw.1) (x : Vec n) :
    backtransform cg (backtransform cg x) = backtransform cg x := by
  apply backtransform_agree (isShifted cg) cg
  · intro e he hne
    exact ⟨⟨e, he, rfl, hne⟩, hm e he⟩
  · intro m hS
    exact backtransform_of_not_shifted cg x m ((not_isShifted_iff cg m).mp hS)
  · intro d hS hd
    exact absurd hS ((not_isShifted_iff cg d).mpr hd)

/-- Witness for C7: DOF `2` hanging between the Dirichlet DOF `0` and the free
DOF `1`. -/
theorem backtransform_idempotent_witness :
    backtransform
        [((0 : Fin 3), ({ masters := [], offset := 0 } : Relation 3)),
         ((2 : Fin 3), ({ masters := [(0, 1 / 2), (1, 1 / 2)], offset := 0 } : Relation 3))]
        (backtransform
          [((0 : Fin 3), ({ masters := [], offset := 0 } : Relation 3)),
           ((2 : Fin 3), ({ masters := [(0, 1 / 2), (1, 1 / 2)], offset := 0 } : Relation 3))]
          (fun i => if i = 2 then 100 else 4)) =
      backtransform
        [((0 : Fin 3), ({ masters := [], offset := 0 } : Relation 3)),
         ((2 : Fin 3), ({ masters := [(0, 1 / 2), (1, 1 / 2)], offset := 0 } : Relation 3))]
        (fun i => if i = 2 then 100 else 4) :=
  backtransform_idempotent
    [((0 : Fin 3), ({ masters := [], offset := 0 } : Relation 3)),
     ((2 : Fin 3), ({ masters := [(0, 1 / 2), (1, 1 / 2)], offset := 0 } : Relation 3))]
    (by
      intro e he mw hmw
      rw [not_isShifted_iff]
      intro e1 he1 hd
      simp only [List.mem_cons, List.mem_singleton, List.not_mem_nil, or_false] at he he1
      rcases he1 with rfl | rfl
      · rfl
      · rcases he with rfl | rfl
        · cases hmw
        · simp only [List.mem_cons, List.mem_singleton, List.not_mem_nil, or_false] at hmw
          rcases hmw with rfl | rfl
          · exact absurd hd (by decide)
          · exact absurd hd (by decide))
    (fun i => if i = 2 then 100 else 4)

/-! ### `q1interpolate` -/

/-- The restoring fold of `set_nonconstrained_dofs`: a DOF with an entry gets
its former value, every other DOF keeps the current one. -/
theorem copy_constrained_fold {n : Nat} (tmp : Vec n) (d : Fin n) :
    ∀ (l : Constraints n) (y : Vec n),
      l.foldl (fun x e => Function.update x e.1 (tmp e.1)) y d =
        if d ∈ l.map Prod.fst then tmp d else y d := by
  intro l
  induction l with
  | nil => intro y; simp
  | cons e l ih =>
    intro y
    rw [List.foldl_cons, ih]
    by_cases h1 : d ∈ l.map Prod.fst
    · have h2 : d ∈ (e :: l).map Prod.fst := by
        rw [List.map_cons]; exact List.mem_cons_of_mem _ h1
      rw [if_pos h1, if_pos h2]
    · rw [if_neg h1]
      by_cases h3 : d = e.1
      · have h2 : d ∈ (e :: l).map Prod.fst := by
          rw [List.map_cons, h3]; exact List.mem_cons_self _ _
        rw [if_pos h2, h3, Function.update_same]
      · have h2 : d ∉ (e :: l).map Prod.fst := by
          rw [List.map_cons, List.mem_cons]
          rintro (h | h)
          · exact h3 h
          · exact h1 h
        rw [if_neg h2, Function.update_noteq h3]

/-- C8: after `interpolate(u,gfs,x)` and `set_nonconstrained_dofs(t,0.0,x)` in
`q1interpolate`, every DOF with an entry in the container `t` holds the
interpolated value of `u` and every DOF without an entry holds `0`. -/
theorem q1interpolate_values {n : Nat} (t : Constraints n) (interpolate_u : Vec n → Vec n)
    (d : Fin n) :
    q1interpolate t interpolate_u d =
      if d ∈ t.map Prod.fst then interpolate_u (fun _ => 0) d else 0 := by
  have e0 : (0.0 : ℚ) = 0 := by norm_num
  simp only [q1interpolate, set_nonconstrained_dofs]
  rw [copy_constrained_fold]
  simp only [e0]

/-! ### Orderings -/

/-- Prefix sums of the child sizes grow with the prefix. -/
theorem take_sum_mono (sizes : List Nat) (i k : Nat) (h : i ≤ k) :
    (sizes.take i).sum ≤ (sizes.take k).sum := by
  have h1 := List.sum_take_add_sum_drop (sizes.take k) i
  rw [List.take_take, min_eq_left h] at h1
  omega

/-- A prefix sum of the child sizes is at most the total. -/
theorem take_sum_le (sizes : List Nat) (k : Nat) : (sizes.take k).sum ≤ sizes.sum := by
  have h1 := List.sum_take_add_sum_drop sizes k
  omega

/-- The indices of child `i` lie below the first index of child `i + 1`. -/
theorem lexicographicIndex_lt_next (sizes : List Nat) (i j : Nat) (hi : i < sizes.length)
    (hj : j < sizes.getD i 0) :
    lexicographicIndex sizes i j < (sizes.take (i + 1)).sum := by
  unfold lexicographicIndex
  rw [List.sum_take_succ sizes i hi]
  rw [List.getD_eq_getElem sizes 0 hi] at hj
  omega

/-- Every global index below the total is the index of some child DOF. -/
theorem lexicographicIndex_surj :
    ∀ (sizes : List Nat) (g : Nat), g < sizes.sum →
      ∃ i j, i < sizes.length ∧ j < sizes.getD i 0 ∧ lexicographicIndex sizes i j = g := by
  intro sizes
  induction sizes with
  | nil => intro g h; simp at h
  | cons a rest ih =>
    intro g h
    rw [List.sum_cons] at h
    by_cases hg : g < a
    · refine ⟨0, g, by simp, by simpa using hg, by simp [lexicographicIndex]⟩
    · obtain ⟨i, j, hi, hj, hij⟩ := ih (g - a) (by omega)
      refine ⟨i + 1, j, by simpa using hi, by simpa using hj, ?_⟩
      unfold lexicographicIndex at hij ⊢
      rw [List.take_succ_cons, List.sum_cons]
      omega

/-- Two valid (child, local index) pairs with one global index coincide. -/
theorem lexicographicIndex_inj (sizes : List Nat) (i j i2 j2 : Nat)
    (hi : i < sizes.length) (hj : j < sizes.getD i 0)
    (hi2 : i2 < sizes.length) (hj2 : j2 < sizes.getD i2 0)
    (h : lexicographicIndex sizes i j = lexicographicIndex sizes i2 j2) :
    i = i2 ∧ j = j2 := by
  have key : ∀ a b c d : Nat, a < sizes.length → b < sizes.getD a 0 → a < c →
      lexicographicIndex sizes a b < lexicographicIndex sizes c d := by
    intro a b c d ha hb hac
    have h1 := lexicographicIndex_lt_next sizes a b ha hb
    have h2 := take_sum_mono sizes (a + 1) c hac
    unfold lexicographicIndex at h1 ⊢
    omega
  have hii : i = i2 := by
    rcases Nat.lt_trichotomy i i2 with hlt | heq | hgt
    · have := key i j i2 j2 hi hj hlt
      omega
    · exact heq
    · have := key i2 j2 i j hi2 hj2 hgt
      omega
  subst hii
  unfold lexicographicIndex at h
  exact ⟨rfl, by omega⟩

/-- C9: in the lexicographic composite of children with DOF counts `sizes` and
in the entity-blocked power space of `c` equal children of `n` DOFs, the map
from (child, child-local DOF index) to global DOF index is a bijection onto
the indices below the total DOF count, and in the lexicographic case every
index of child `i` precedes every index of child `i + 1`. -/
theorem ordering_bijective (sizes : List Nat) (c n : Nat) :
    (∀ i j, i < sizes.length → j < sizes.getD i 0 →
      lexicographicIndex sizes i j < sizes.sum) ∧
    (∀ g, g < sizes.sum → ∃! p : Nat × Nat,
      p.1 < sizes.length ∧ p.2 < sizes.getD p.1 0 ∧ lexicographicIndex sizes p.1 p.2 = g) ∧
    (∀ i j j2, i + 1 < sizes.length → j < sizes.getD i 0 → j2 < sizes.getD (i + 1) 0 →
      lexicographicIndex sizes i j < lexicographicIndex sizes (i + 1) j2) ∧
    (∀ i j, i < c → j < n → entityBlockedIndex c i j < c * n) ∧
    (∀ g, g < c * n → ∃! p : Nat × Nat,
      p.1 < c ∧ p.2 < n ∧ entityBlockedIndex c p.1 p.2 = g) := by
  refine ⟨?_, ?_, ?_, ?_, ?_⟩
  · intro i j hi hj
    have h1 := lexicographicIndex_lt_next sizes i j hi hj
    have h2 := take_sum_le sizes (i + 1)
    omega
  · intro g hg
    obtain ⟨i, j, hi, hj, hij⟩ := lexicographicIndex_surj sizes g hg
    refine ⟨(i, j), ⟨hi, hj, hij⟩, ?_⟩
    rintro ⟨i2, j2⟩ ⟨hi2, hj2, hij2⟩
    obtain ⟨h1, h2⟩ := lexicographicIndex_inj sizes i2 j2 i j hi2 hj2 hi hj (hij2.trans hij.symm)
    rw [h1, h2]
  · intro i j j2 hi hj _
    have h1 := lexicographicIndex_lt_next sizes i j (by omega) hj
    unfold lexicographicIndex at h1 ⊢
    omega
  · intro i j hi hj
    unfold entityBlockedIndex
    have h1 : (j + 1) * c ≤ n * c := Nat.mul_le_mul_right c (by omega)
    rw [Nat.mul_comm c n]
    rw [Nat.succ_mul] at h1
    omega
  · intro g hg
    have hc : 0 < c := by
      rcases Nat.eq_zero_or_pos c with h0 | h0
      · rw [h0] at hg; simp at hg
      · exact h0
    refine ⟨(g % c, g / c), ⟨Nat.mod_lt g hc, Nat.div_lt_of_lt_mul hg, ?_⟩, ?_⟩
    · unfold entityBlockedIndex
      simp only
      have := Nat.div_add_mod g c
      rw [Nat.mul_comm] at this
      exact this
    · rintro ⟨i, j⟩ ⟨hi, _, hij⟩
      simp only at hi hij
      unfold entityBlockedIndex at hij
      have h1 : g / c = j ∧ g % c = i :=
        (Nat.div_mod_unique hc).mpr ⟨by rw [Nat.mul_comm c j, Nat.add_comm]; exact hij, hi⟩
      rw [h1.1, h1.2]

/-- Witness for C9: the Taylor-Hood space on a grid with 25 Q2 DOFs and 9 Q1
DOFs in dimension 2 (the pressure DOF `3` has a global index below the total
59), and the two-child blocked space with 9 DOFs per child. -/
theorem ordering_bijective_witness :
    lexicographicIndex (thinterpolateSizes 2 25 9) 1 3 < (thinterpolateSizes 2 25 9).sum ∧
    entityBlockedIndex example05Children 1 8 < example05Children * 9 :=
  ⟨(ordering_bijective (thinterpolateSizes 2 25 9) example05Children 9).1 1 3
      (by decide) (by decide),
   (ordering_bijective (thinterpolateSizes 2 25 9) example05Children 9).2.2.2.1 1 8
      (by decide) (by decide)⟩

/-! ### The Dirichlet value `G` and the flux `J` -/

/-- C20: at every global point, the content of `y` after `J::evaluateGlobal`
is independent of its prior content (a value has been assigned) exactly when
`BCTypeParam::isDirichlet` is false there; at every point classified Dirichlet
`y` is left at its prior value. -/
theorem J_assigns_iff_not_dirichlet {C : Type} (global : C → Point) (coord : C) :
    (BCTypeParam.isDirichlet global coord = false ↔
      ∀ y y2 : ℚ, J.evaluateGlobal (global coord) y = J.evaluateGlobal (global coord) y2) ∧
    (BCTypeParam.isDirichlet global coord = true →
      ∀ y : ℚ, J.evaluateGlobal (global coord) y = y) := by
  by_cases h1 : global coord 1 < 1e-6 ∨ global coord 1 > 1.0 - 1e-6
  · have hd : BCTypeParam.isDirichlet global coord = false := by
      simp only [BCTypeParam.isDirichlet, if_pos h1]
    have hj : ∀ y : ℚ, J.evaluateGlobal (global coord) y = 0 := by
      intro y
      simp only [J.evaluateGlobal, if_pos h1]
    refine ⟨⟨fun _ y y2 => by rw [hj y, hj y2], fun _ => hd⟩, fun h => ?_⟩
    rw [hd] at h
    cases h
  · by_cases h2 : global coord 0 > 1.0 - 1e-6 ∧ global coord 1 > 0.5 + 1e-6
    · have hd : BCTypeParam.isDirichlet global coord = false := by
        simp only [BCTypeParam.isDirichlet, if_neg h1, if_pos h2]
      have hj : ∀ y : ℚ, J.evaluateGlobal (global coord) y = -5.0 := by
        intro y
        simp only [J.evaluateGlobal, if_neg h1, if_pos h2]
      refine ⟨⟨fun _ y y2 => by rw [hj y, hj y2], fun _ => hd⟩, fun h => ?_⟩
      rw [hd] at h
      cases h
    · have hd : BCTypeParam.isDirichlet global coord = true := by
        simp only [BCTypeParam.isDirichlet, if_neg h1, if_neg h2]
      have hj : ∀ y : ℚ, J.evaluateGlobal (global coord) y = y := by
        intro y
        simp only [J.evaluateGlobal, if_neg h1, if_neg h2]
      refine ⟨⟨fun h => ?_, fun h => ?_⟩, fun _ => hj⟩
      · rw [hd] at h
        cases h
      · have h01 := h 0 1
        rw [hj 0, hj 1] at h01
        exact absurd h01 (by norm_num)

/-- Witness for C20: at the Dirichlet point `(0, 1/2)` a prior content `7` of
`y` is still there on return. -/
theorem J_assigns_iff_not_dirichlet_witness :
    J.evaluateGlobal ((fun c : ℚ => fun i => if i = 0 then 0 else c) (1 / 2)) 7 = 7 :=
  (J_assigns_iff_not_dirichlet (fun c : ℚ => fun i => if i = 0 then 0 else c) (1 / 2)).2
    (by simp only [BCTypeParam.isDirichlet]; norm_num) 7

/-! ### Step sizes and completed passes -/

/-- A completed pass adds `dt` to `time`, updates `dt` by lines 124-125, makes
the vector returned by `osm.apply` the next `uold`, and writes one file. -/
theorem stepBody_ok {E U : Type} (osmApply : ℚ → ℚ → U → U → Except E U) (dtmax : ℚ)
    (s s' : LoopState U) (h : stepBody osmApply dtmax s = .ok s') :
    s'.time = s.time + s.dt ∧ s'.dt = nextDt s.dt dtmax ∧
      osmApply s.time s.dt s.uold s.unew = .ok s'.uold ∧
      s'.files.length = s.files.length + 1 := by
  unfold stepBody at h
  cases hr : osmApply s.time s.dt s.uold s.unew with
  | error e => rw [hr] at h; cases h
  | ok u =>
    rw [hr] at h
    injection h with h
    subst h
    simp

/-- The last of `n + 1` completed passes starts from the state after `n`
passes, in which the loop condition holds. -/
theorem afterPasses_succ_inv {E U : Type} (osmApply : ℚ → ℚ → U → U → Except E U)
    (dtmax tend : ℚ) (n : Nat) :
    ∀ (s0 s : LoopState U), afterPasses osmApply dtmax tend (n + 1) s0 = some s →
      ∃ sn, afterPasses osmApply dtmax tend n s0 = some sn ∧ sn.time < tend - 1e-8 ∧
        stepBody osmApply dtmax sn = .ok s := by
  induction n with
  | zero =>
    intro s0 s h
    unfold afterPasses at h
    split at h
    · rename_i hc
      cases hb : stepBody osmApply dtmax s0 with
      | error e => rw [hb] at h; cases h
      | ok s1 =>
        rw [hb] at h
        simp only [afterPasses] at h
        injection h with h
        subst h
        exact ⟨s0, rfl, hc, hb⟩
    · cases h
  | succ n ih =>
    intro s0 s h
    unfold afterPasses at h
    split at h
    · rename_i hc
      cases hb : stepBody osmApply dtmax s0 with
      | error e => rw [hb] at h; cases h
      | ok s1 =>
        rw [hb] at h
        simp only at h
        obtain ⟨sn, h1, h2, h3⟩ := ih s1 s h
        refine ⟨sn, ?_, h2, h3⟩
        unfold afterPasses
        rw [if_pos hc]
        simp only [hb]
        exact h1
    · cases h

/-- After `n` completed passes: the step size, the time, and the number of
files. -/
theorem afterPasses_state {E U : Type} (osmApply : ℚ → ℚ → U → U → Except E U)
    (dtmax tend : ℚ) (s0 : LoopState U) (n : Nat) :
    ∀ s : LoopState U, afterPasses osmApply dtmax tend n s0 = some s →
      s.dt = stepSize s0.dt dtmax n ∧
      s.time = s0.time + ((List.range n).map (stepSize s0.dt dtmax)).sum ∧
      s.files.length = s0.files.length + n := by
  induction n with
  | zero =>
    intro s h
    simp only [afterPasses] at h
    injection h with h
    subst h
    simp [stepSize]
  | succ n ih =>
    intro s h
    obtain ⟨sn, h1, _, h3⟩ := afterPasses_succ_inv osmApply dtmax tend n s0 s h
    obtain ⟨hd, ht, hf⟩ := ih sn h1
    obtain ⟨k1, k2, _, k4⟩ := stepBody_ok osmApply dtmax sn s h3
    refine ⟨?_, ?_, ?_⟩
    · rw [k2, hd]; rfl
    · rw [k1, ht, hd, List.range_succ, List.map_append, List.sum_append]
      simp only [List.map_cons, List.map_nil, List.sum_cons, List.sum_nil, add_zero]
      ring
    · rw [k4, hf]; omega

/-- Every shorter run of completed passes is defined as well. -/
theorem afterPasses_prefix {E U : Type} (osmApply : ℚ → ℚ → U → U → Except E U)
    (dtmax tend : ℚ) (s0 : LoopState U) (n : Nat) :
    ∀ s : LoopState U, afterPasses osmApply dtmax tend n s0 = some s →
      ∀ i, i ≤ n → ∃ si, afterPasses osmApply dtmax tend i s0 = some si := by
  induction n with
  | zero =>
    intro s h i hi
    have : i = 0 := by omega
    subst this
    exact ⟨s, h⟩
  | succ n ih =>
    intro s h i hi
    rcases Nat.lt_or_ge i (n + 1) with hlt | hge
    · obtain ⟨sn, h1, _, _⟩ := afterPasses_succ_inv osmApply dtmax tend n s0 s h
      exact ih sn h1 i (by omega)
    · have : i = n + 1 := by omega
      subst this
      exact ⟨s, h⟩

/-- A normal return of the loop happens after some number of completed passes,
with the loop condition false. -/
theorem timeLoop_finished_inv {E U : Type} (osmApply : ℚ → ℚ → U → U → Except E U)
    (dtmax tend : ℚ) (fuel : Nat) :
    ∀ (s0 s : LoopState U), timeLoop osmApply dtmax tend fuel s0 = .finished s →
      ∃ n, n ≤ fuel ∧ afterPasses osmApply dtmax tend n s0 = some s ∧
        ¬ (s.time < tend - 1e-8) := by
  induction fuel with
  | zero =>
    intro s0 s h
    unfold timeLoop at h
    split at h
    · cases h
    · rename_i hc
      injection h with h
      subst h
      exact ⟨0, le_refl 0, rfl, hc⟩
  | succ fuel ih =>
    intro s0 s h
    unfold timeLoop at h
    split at h
    · rename_i hc
      cases hb : stepBody osmApply dtmax s0 with
      | error e => rw [hb] at h; cases h
      | ok s1 =>
        rw [hb] at h
        simp only at h
        obtain ⟨n, hn, h1, h2⟩ := ih s1 s h
        refine ⟨n + 1, by omega, ?_, h2⟩
        unfold afterPasses
        rw [if_pos hc]
        simp only [hb]
        exact h1
    · rename_i hc
      injection h with h
      subst h
      exact ⟨0, Nat.zero_le _, rfl, hc⟩

/-- A run that uses up its `n` passes with the loop condition still true has
completed `n` passes. -/
theorem timeLoop_outOfFuel_inv {E U : Type} (osmApply : ℚ → ℚ → U → U → Except E U)
    (dtmax tend : ℚ) (n : Nat) :
    ∀ (s0 s : LoopState U), timeLoop osmApply dtmax tend n s0 = .outOfFuel s →
      afterPasses osmApply dtmax tend n s0 = some s ∧ s.time < tend - 1e-8 := by
  induction n with
  | zero =>
    intro s0 s h
    unfold timeLoop at h
    split at h
    · rename_i hc
      injection h with h
      subst h
      exact ⟨rfl, hc⟩
    · cases h
  | succ n ih =>
    intro s0 s h
    unfold timeLoop at h
    split at h
    · rename_i hc
      cases hb : stepBody osmApply dtmax s0 with
      | error e => rw [hb] at h; cases h
      | ok s1 =>
        rw [hb] at h
        simp only at h
        obtain ⟨h1, h2⟩ := ih s1 s h
        refine ⟨?_, h2⟩
        unfold afterPasses
        rw [if_pos hc]
        simp only [hb]
        exact h1
    · cases h

/-- Lines 124-125 with exact `min`. -/
theorem nextDt_eq (dt dtmax : ℚ) :
    nextDt dt dtmax = if dt < dtmax - 1 / 10 ^ 8 then min (dt * (11 / 10)) dtmax else dt := by
  have e1 : (1e-8 : ℚ) = 1 / 10 ^ 8 := by norm_num
  have e2 : (1.1 : ℚ) = 11 / 10 := by norm_num
  unfold nextDt stdMin
  rw [e1, e2]
  by_cases h : dt < dtmax - 1 / 10 ^ 8
  · rw [if_pos h, if_pos h]
    by_cases hb : dtmax < dt * (11 / 10)
    · rw [if_pos hb, min_eq_right (le_of_lt hb)]
    · rw [if_neg hb, min_eq_left (not_lt.mp hb)]
  · rw [if_neg h, if_neg h]

/-- A positive step size never shrinks. -/
theorem nextDt_ge (dt dtmax : ℚ) (h : 0 < dt) : dt ≤ nextDt dt dtmax := by
  rw [nextDt_eq]
  by_cases hc : dt < dtmax - 1 / 10 ^ 8
  · rw [if_pos hc]
    apply le_min
    · linarith
    · have : (0 : ℚ) < 1 / 10 ^ 8 := by norm_num
      linarith
  · rw [if_neg hc]

/-- A step size at most `dtmax` stays at most `dtmax`. -/
theorem nextDt_le (dt dtmax : ℚ) (h : dt ≤ dtmax) : nextDt dt dtmax ≤ dtmax := by
  rw [nextDt_eq]
  by_cases hc : dt < dtmax - 1 / 10 ^ 8
  · rw [if_pos hc]
    exact min_le_right _ _
  · rw [if_neg hc]
    exact h

/-- With a positive start value the step sizes stay at or above it. -/
theorem stepSize_ge_start (dtstart dtmax : ℚ) (hpos : 0 < dtstart) (n : Nat) :
    dtstart ≤ stepSize dtstart dtmax n := by
  induction n with
  | zero => exact le_refl _
  | succ n ih =>
    have h1 : 0 < stepSize dtstart dtmax n := lt_of_lt_of_le hpos ih
    exact le_trans ih (nextDt_ge _ dtmax h1)

/-- With a start value at most `dtmax` the step sizes stay at most `dtmax`. -/
theorem stepSize_le_max (dtstart dtmax : ℚ) (hle : dtstart ≤ dtmax) (n : Nat) :
    stepSize dtstart dtmax n ≤ dtmax := by
  induction n with
  | zero => exact hle
  | succ n ih => exact nextDt_le _ dtmax ih

/-- C17: for `0 < dtstart ≤ dtmax` the step sizes `dt_0, dt_1, ...` passed to
`osm.apply` by `example05_QkQk` satisfy `dtstart = dt_0 ≤ dt_n ≤ dt_(n+1) ≤ dtmax`
for every `n`; `dt_n` is the value of `dt` with which pass `n` is entered. -/
theorem stepSize_monotone_bounded {E U : Type} (osmApply : ℚ → ℚ → U → U → Except E U)
    (u0 : U) (dtstart dtmax tend : ℚ) (hpos : 0 < dtstart) (hle : dtstart ≤ dtmax)
    (n : Nat) :
    stepSize dtstart dtmax 0 = dtstart ∧
      dtstart ≤ stepSize dtstart dtmax n ∧
      stepSize dtstart dtmax n ≤ stepSize dtstart dtmax (n + 1) ∧
      stepSize dtstart dtmax (n + 1) ≤ dtmax ∧
      ∀ s, example05_QkQk osmApply u0 dtstart dtmax tend n = .outOfFuel s →
        s.dt = stepSize dtstart dtmax n := by
  refine ⟨rfl, stepSize_ge_start dtstart dtmax hpos n, ?_,
    stepSize_le_max dtstart dtmax hle (n + 1), ?_⟩
  · exact nextDt_ge _ dtmax (lt_of_lt_of_le hpos (stepSize_ge_start dtstart dtmax hpos n))
  · intro s h
    unfold example05_QkQk at h
    obtain ⟨h1, _⟩ := timeLoop_outOfFuel_inv osmApply dtmax tend n _ s h
    exact (afterPasses_state osmApply dtmax tend _ n s h1).1

/-- Witness for C17: `dtstart = 1/2`, `dtmax = 1`; the first two step sizes. -/
theorem stepSize_monotone_bounded_witness :
    stepSize (1 / 2) 1 0 ≤ stepSize (1 / 2) 1 (0 + 1) ∧ stepSize (1 / 2) 1 (0 + 1) ≤ 1 :=
  ⟨(stepSize_monotone_bounded (fun _ _ _ u => (Except.ok u : Except Unit Unit)) () (1 / 2) 1 3
      (by norm_num) (by norm_num) 0).2.2.1,
   (stepSize_monotone_bounded (fun _ _ _ u => (Except.ok u : Except Unit Unit)) () (1 / 2) 1 3
      (by norm_num) (by norm_num) 0).2.2.2.1⟩

/-- A normal return within `n` passes is the outcome for every larger
budget. -/
theorem timeLoop_finished_mono {E U : Type} (osmApply : ℚ → ℚ → U → U → Except E U)
    (dtmax tend : ℚ) (k : Nat) (n : Nat) :
    ∀ (s0 s : LoopState U), timeLoop osmApply dtmax tend n s0 = .finished s →
      timeLoop osmApply dtmax tend (n + k) s0 = .finished s := by
  induction n with
  | zero =>
    intro s0 s h
    unfold timeLoop at h
    split at h
    · cases h
    · rename_i hc
      rw [Nat.zero_add]
      cases k with
      | zero => unfold timeLoop; rw [if_neg hc]; exact h
      | succ k => unfold timeLoop; rw [if_neg hc]; exact h
  | succ n ih =>
    intro s0 s h
    have hn : n + 1 + k = (n + k) + 1 := by omega
    rw [hn]
    unfold timeLoop at h ⊢
    split at h
    · rename_i hc
      rw [if_pos hc]
      cases hb : stepBody osmApply dtmax s0 with
      | error e => rw [hb] at h; cases h
      | ok s1 =>
        rw [hb] at h
        simp only at h ⊢
        exact ih s1 s h
    · rename_i hc
      rw [if_neg hc]
      exact h

/-- While `osm.apply` returns and the step size is at least `d0 > 0`, a budget
of `fuel` passes with `tend - 1e-8 - time ≤ fuel * d0` lets the loop return. -/
theorem timeLoop_finishes {E U : Type} (osmApply : ℚ → ℚ → U → U → Except E U)
    (dtmax tend d0 : ℚ) (hd0 : 0 < d0)
    (hret : ∀ t d u v, ∃ w, osmApply t d u v = .ok w) (fuel : Nat) :
    ∀ s : LoopState U, d0 ≤ s.dt → tend - 1 / 10 ^ 8 - s.time ≤ fuel * d0 →
      ∃ s', timeLoop osmApply dtmax tend fuel s = .finished s' ∧
        s'.files.length ≤ s.files.length + fuel := by
  have e1 : (1e-8 : ℚ) = 1 / 10 ^ 8 := by norm_num
  induction fuel with
  | zero =>
    intro s _ hrem
    have hc : ¬ (s.time < tend - 1e-8) := by
      rw [e1]
      simp only [Nat.cast_zero, zero_mul] at hrem
      intro h
      linarith
    refine ⟨s, ?_, le_refl _⟩
    unfold timeLoop
    rw [if_neg hc]
  | succ fuel ih =>
    intro s hdt hrem
    by_cases hc : s.time < tend - 1e-8
    · obtain ⟨w, hw⟩ := hret s.time s.dt s.uold s.unew
      have hb : stepBody osmApply dtmax s =
          .ok { time := s.time + s.dt, dt := nextDt s.dt dtmax, uold := w, unew := w,
                files := s.files ++ [w] } := by
        unfold stepBody
        rw [hw]
      have hpos : 0 < s.dt := lt_of_lt_of_le hd0 hdt
      obtain ⟨s', h1, h2⟩ := ih
        { time := s.time + s.dt, dt := nextDt s.dt dtmax, uold := w, unew := w,
          files := s.files ++ [w] }
        (le_trans hdt (nextDt_ge s.dt dtmax hpos))
        (by
          simp only
          push_cast at hrem
          linarith)
      refine ⟨s', ?_, ?_⟩
      · unfold timeLoop
        rw [if_pos hc]
        simp only [hb]
        exact h1
      · simp only [List.length_append, List.length_singleton] at h2
        omega
    · refine ⟨s, ?_, by omega⟩
      unfold timeLoop
      rw [if_neg hc]

/-- C18: for `dtstart > 0`, all `dtmax` and `tend`, and an `osm.apply` that
always returns, the time loop of `example05_QkQk` returns: after zero passes
when `tend ≤ 1e-8`, and otherwise within `⌈(tend - 1e-8) / dtstart⌉` passes. -/
theorem example05_terminates {E U : Type} (osmApply : ℚ → ℚ → U → U → Except E U)
    (u0 : U) (dtstart dtmax tend : ℚ) (hpos : 0 < dtstart)
    (hret : ∀ t d u v, ∃ w, osmApply t d u v = .ok w) :
    (tend ≤ 1 / 10 ^ 8 → ∀ fuel,
      example05_QkQk osmApply u0 dtstart dtmax tend fuel =
        .finished (initialState u0 dtstart)) ∧
    (∀ fuel, ⌈(tend - 1 / 10 ^ 8) / dtstart⌉₊ ≤ fuel →
      ∃ s, example05_QkQk osmApply u0 dtstart dtmax tend fuel = .finished s ∧
        s.files.length ≤ ⌈(tend - 1 / 10 ^ 8) / dtstart⌉₊ + 1) := by
  have e1 : (1e-8 : ℚ) = 1 / 10 ^ 8 := by norm_num
  have e0 : (0.0 : ℚ) = 0 := by norm_num
  constructor
  · intro ht fuel
    have hc : ¬ ((initialState u0 dtstart).time < tend - 1e-8) := by
      simp only [initialState, e0, e1]
      intro h
      linarith
    unfold example05_QkQk
    cases fuel with
    | zero => unfold timeLoop; rw [if_neg hc]
    | succ k => unfold timeLoop; rw [if_neg hc]
  · intro fuel hfuel
    have hceil : (tend - 1 / 10 ^ 8) / dtstart ≤
        ((⌈(tend - 1 / 10 ^ 8) / dtstart⌉₊ : Nat) : ℚ) := Nat.le_ceil _
    have hrem : tend - 1 / 10 ^ 8 - (initialState u0 dtstart).time ≤
        ((⌈(tend - 1 / 10 ^ 8) / dtstart⌉₊ : Nat) : ℚ) * dtstart := by
      have := (div_le_iff₀ hpos).mp hceil
      simp only [initialState, e0]
      linarith
    obtain ⟨s, h1, h2⟩ := timeLoop_finishes osmApply dtmax tend dtstart hpos hret
      ⌈(tend - 1 / 10 ^ 8) / dtstart⌉₊ (initialState u0 dtstart) (le_refl _) hrem
    refine ⟨s, ?_, ?_⟩
    · unfold example05_QkQk
      have hk : fuel = ⌈(tend - 1 / 10 ^ 8) / dtstart⌉₊ +
          (fuel - ⌈(tend - 1 / 10 ^ 8) / dtstart⌉₊) := by omega
      rw [hk]
      exact timeLoop_finished_mono osmApply dtmax tend _ _ _ s h1
    · simp only [initialState, List.length_singleton] at h2
      omega

/-- Witness for C18: `dtstart = dtmax = 1`, `tend = 3`: with a budget of five
passes the loop returns, having written at most `⌈3 - 1e-8⌉ + 1` files. -/
theorem example05_terminates_witness :
    ∃ s, example05_QkQk (fun _ _ _ u => (Except.ok u : Except Unit Unit)) () 1 1 3 5 =
        .finished s ∧
      s.files.length ≤ ⌈((3 : ℚ) - 1 / 10 ^ 8) / 1⌉₊ + 1 :=
  (example05_terminates (fun _ _ _ u => (Except.ok u : Except Unit Unit)) () 1 1 3
    (by norm_num) (fun _ _ _ w => ⟨w, rfl⟩)).2 5
    (Nat.ceil_le.mpr (by norm_num))

/-- C19: when the time loop of `example05_QkQk` returns after `n ≥ 1` passes,
the final time is the sum of the `n` step sizes passed to `osm.apply`, it is
at least `tend - 1e-8` and exceeds `tend - 1e-8` by less than the last step
size; pass `i` is made with the unshortened step size `dt_i`, and the vector
it produces is the `uold` of the state in which pass `i + 1` starts. -/
theorem example05_final_time {E U : Type} (osmApply : ℚ → ℚ → U → U → Except E U)
    (u0 : U) (dtstart dtmax tend : ℚ) (fuel n : Nat) (s : LoopState U) (hn : 1 ≤ n)
    (hfin : example05_QkQk osmApply u0 dtstart dtmax tend fuel = .finished s)
    (hcount : s.files.length = n + 1) :
    s.time = ((List.range n).map (stepSize dtstart dtmax)).sum ∧
      s.time ≥ tend - 1 / 10 ^ 8 ∧
      s.time - (tend - 1 / 10 ^ 8) < stepSize dtstart dtmax (n - 1) ∧
      ∀ i, i < n → ∃ si sj,
        afterPasses osmApply dtmax tend i (initialState u0 dtstart) = some si ∧
        afterPasses osmApply dtmax tend (i + 1) (initialState u0 dtstart) = some sj ∧
        si.dt = stepSize dtstart dtmax i ∧
        osmApply si.time si.dt si.uold si.unew = .ok sj.uold := by
  have e1 : (1e-8 : ℚ) = 1 / 10 ^ 8 := by norm_num
  have e0 : (0.0 : ℚ) = 0 := by norm_num
  unfold example05_QkQk at hfin
  obtain ⟨m, _, hm, hexit⟩ := timeLoop_finished_inv osmApply dtmax tend fuel _ s hfin
  obtain ⟨_, ht, hf⟩ := afterPasses_state osmApply dtmax tend _ m s hm
  have hmn : m = n := by
    simp only [initialState, List.length_singleton] at hf
    omega
  subst hmn
  have hs0t : (initialState u0 dtstart).time = 0 := by simp only [initialState, e0]
  have hs0d : (initialState u0 dtstart).dt = dtstart := rfl
  rw [hs0t, hs0d, zero_add] at ht
  rw [e1] at hexit
  refine ⟨ht, not_lt.mp hexit, ?_, ?_⟩
  · obtain ⟨k, hk⟩ : ∃ k, m = k + 1 := ⟨m - 1, by omega⟩
    subst hk
    obtain ⟨sn, h1, h2, h3⟩ := afterPasses_succ_inv osmApply dtmax tend k _ s hm
    obtain ⟨hd, _, _⟩ := afterPasses_state osmApply dtmax tend _ k sn h1
    obtain ⟨k1, _, _, _⟩ := stepBody_ok osmApply dtmax sn s h3
    rw [hs0d] at hd
    rw [e1] at h2
    rw [Nat.add_sub_cancel, ← hd, k1]
    linarith
  · intro i hi
    obtain ⟨sj, hj⟩ := afterPasses_prefix osmApply dtmax tend _ m s hm (i + 1) (by omega)
    obtain ⟨si, h1, _, h3⟩ := afterPasses_succ_inv osmApply dtmax tend i _ sj hj
    obtain ⟨hd, _, _⟩ := afterPasses_state osmApply dtmax tend _ i si h1
    obtain ⟨_, _, k3, _⟩ := stepBody_ok osmApply dtmax si sj h3
    exact ⟨si, sj, h1, hj, hd, k3⟩

/-- Witness for C19: `dtstart = dtmax = 1`, `tend = 2`: the loop returns after
two passes at time `2 = 1 + 1`. -/
theorem example05_final_time_witness :
    ({ time := 2, dt := 1, uold := (), unew := (), files := [(), (), ()] } :
        LoopState Unit).time =
      ((List.range 2).map (stepSize 1 1)).sum :=
  (example05_final_time (fun _ _ _ u => (Except.ok u : Except Unit Unit)) () 1 1 2 5 2
    { time := 2, dt := 1, uold := (), unew := (), files := [(), (), ()] }
    (by decide)
    (by
      simp only [example05_QkQk, timeLoop, stepBody, initialState, nextDt]
      norm_num)
    rfl).1

/-! ### `doSomeRandomRefinement` and hanging-node isolation -/

/-- The isolation returns only grids in which no edge has more than one
hanging node. -/
theorem isolateHangingNodes_ok {G Cell : Type} (ops : GridOps G Cell)
    (view : HangingNodeView G Cell) (passes : Nat) :
    ∀ (g g' : G), isolateHangingNodes ops view passes g = .ok g' →
      ∀ k ∈ view.hangingNodesPerEdge g', k ≤ 1 := by
  induction passes with
  | zero =>
    intro g g' h
    unfold isolateHangingNodes at h
    split at h
    · rename_i hc
      injection h with h
      subst h
      intro k hk
      exact of_decide_eq_true (List.all_eq_true.mp hc k hk)
    · cases h
  | succ passes ih =>
    intro g g' h
    unfold isolateHangingNodes at h
    split at h
    · rename_i hc
      injection h with h
      subst h
      intro k hk
      exact of_decide_eq_true (List.all_eq_true.mp hc k hk)
    · exact ih _ g' h

/-- The isolation returns a grid as soon as some number of passes within the
budget leaves no edge with more than one hanging node. -/
theorem isolateHangingNodes_converges {G Cell : Type} (ops : GridOps G Cell)
    (view : HangingNodeView G Cell) (passes : Nat) :
    ∀ (g : G) (k : Nat), k ≤ passes →
      (view.hangingNodesPerEdge ((isolationPass ops view)^[k] g)).all
        (fun m => decide (m ≤ 1)) = true →
      ∃ g', isolateHangingNodes ops view passes g = .ok g' := by
  induction passes with
  | zero =>
    intro g k hk hall
    have : k = 0 := by omega
    subst this
    simp only [Function.iterate_zero, id_eq] at hall
    exact ⟨g, by unfold isolateHangingNodes; rw [if_pos hall]⟩
  | succ passes ih =>
    intro g k hk hall
    unfold isolateHangingNodes
    by_cases hc : (view.hangingNodesPerEdge g).all (fun m => decide (m ≤ 1)) = true
    · exact ⟨g, by rw [if_pos hc]⟩
    · rw [if_neg hc]
      cases k with
      | zero =>
        simp only [Function.iterate_zero, id_eq] at hall
        exact absurd hall hc
      | succ k =>
        rw [Function.iterate_succ_apply] at hall
        exact ih _ k (by omega) hall

/-- C11: when the hanging-node constraints engine has been constructed with
`adaptToIsolateHangingNodes = true` on a grid produced by
`doSomeRandomRefinement`, every edge of the leaf grid carries at most one
hanging node; and the construction succeeds whenever some number of isolation
passes within the pass budget reaches such a grid. -/
theorem isolated_after_construct {G Cell : Type} (ops : GridOps G Cell)
    (view : HangingNodeView G Cell) (maxPasses RAND_MAX : Nat) (draws : Nat → Nat)
    (s : RefineState G Cell) :
    (∀ g', HangingNodesDirichletConstraints.construct ops view maxPasses true
        (doSomeRandomRefinement ops RAND_MAX draws s).grid = .ok g' →
      ∀ k ∈ view.hangingNodesPerEdge g', k ≤ 1) ∧
    (∀ k, k ≤ maxPasses →
      (view.hangingNodesPerEdge ((isolationPass ops view)^[k]
        (doSomeRandomRefinement ops RAND_MAX draws s).grid)).all
          (fun m => decide (m ≤ 1)) = true →
      ∃ g', HangingNodesDirichletConstraints.construct ops view maxPasses true
        (doSomeRandomRefinement ops RAND_MAX draws s).grid = .ok g') := by
  constructor
  · intro g' h
    simp only [HangingNodesDirichletConstraints.construct, if_true] at h
    exact isolateHangingNodes_ok ops view maxPasses _ g' h
  · intro k hk hall
    simp only [HangingNodesDirichletConstraints.construct, if_true]
    exact isolateHangingNodes_converges ops view maxPasses _ k hk hall

/-- Witness for C11: grids are the lists of hanging-node counts per edge and
`adapt` halves every count.  From `[40, 0, 1]` the four random-refinement
passes leave `[2, 0, 0]`, and the constructor returns `[1, 0, 0]`. -/
theorem isolated_after_construct_witness :
    ∀ k ∈ [1, 0, 0], k ≤ 1 :=
  (isolated_after_construct
    ({ leafCells := fun _ => [],
       exec := fun cmd g => match cmd with
         | .adapt => g.map (fun k => k / 2)
         | _ => g } : GridOps (List Nat) Unit)
    ({ hangingNodesPerEdge := fun g => g, crowdedCells := fun _ => [()] } :
      HangingNodeView (List Nat) Unit)
    3 10 (fun _ => 7) { grid := [40, 0, 1], randCalls := 0, log := [] }).1 [1, 0, 0] rfl

/-! ### Constraints assembly, the Newton solver and the test cases -/

/-- C12: for every DOF that is a hanging node and lies on a boundary face that
`BCTypeParam::isDirichlet` classifies as Dirichlet, the constraints assembled
for `poisson` contain the Dirichlet relation (no masters) for that DOF, and no
relation with masters. -/
theorem dirichlet_overrides_hanging {n : Nat} {C : Type}
    (hanging : List (Fin n × List (Fin n × ℚ))) (boundary : List (BoundaryDof n C))
    (d : Fin n) (ms : List (Fin n × ℚ)) (b : BoundaryDof n C)
    (_hh : (d, ms) ∈ hanging) (hb : b ∈ boundary) (hd : b.dof = d)
    (hdir : BCTypeParam.isDirichlet b.global b.coord = true) :
    (d, ({ masters := [], offset := 0 } : Relation n)) ∈ assembleConstraints hanging boundary ∧
      ∀ e ∈ assembleConstraints hanging boundary, e.1 = d → e.2.masters = [] := by
  have hmem : d ∈ ((boundary.filter (fun b => BCTypeParam.isDirichlet b.global b.coord)).map
      (fun b => b.dof)).dedup := by
    rw [List.mem_dedup, List.mem_map]
    exact ⟨b, List.mem_filter.mpr ⟨hb, hdir⟩, hd⟩
  constructor
  · simp only [assembleConstraints]
    apply List.mem_append_left
    rw [List.mem_map]
    exact ⟨d, hmem, rfl⟩
  · intro e he hed
    simp only [assembleConstraints] at he
    rcases List.mem_append.mp he with h | h
    · rw [List.mem_map] at h
      obtain ⟨d1, _, hd1⟩ := h
      rw [← hd1]
    · rw [List.mem_map] at h
      obtain ⟨h1, hf, hh1⟩ := h
      have hnot := (List.mem_filter.mp hf).2
      have hnot1 : h1.1 ∉ ((boundary.filter
          (fun b => BCTypeParam.isDirichlet b.global b.coord)).map (fun b => b.dof)).dedup :=
        of_decide_eq_true hnot
      have hk : h1.1 = d := by rw [← hed, ← hh1]
      rw [hk] at hnot1
      exact absurd hmem hnot1

/-- Witness for C12: DOF `2` hangs between DOFs `0` and `1` and lies on the
left edge, at `(0, 1/2)`, which is classified Dirichlet. -/
theorem dirichlet_overrides_hanging_witness :
    ((2 : Fin 3), ({ masters := [], offset := 0 } : Relation 3)) ∈
      assembleConstraints [((2 : Fin 3), [((0 : Fin 3), (1 / 2 : ℚ)), (1, 1 / 2)])]
        [({ dof := 2, global := fun c i => if i = 0 then 0 else c, coord := 1 / 2 } :
          BoundaryDof 3 ℚ)] :=
  (dirichlet_overrides_hanging [((2 : Fin 3), [((0 : Fin 3), (1 / 2 : ℚ)), (1, 1 / 2)])]
    [({ dof := 2, global := fun c i => if i = 0 then 0 else c, coord := 1 / 2 } :
      BoundaryDof 3 ℚ)]
    2 [((0 : Fin 3), (1 / 2 : ℚ)), (1, 1 / 2)]
    { dof := 2, global := fun c i => if i = 0 then 0 else c, coord := 1 / 2 }
    (List.mem_singleton.mpr rfl) (List.mem_singleton.mpr rfl) rfl
    (by simp only [BCTypeParam.isDirichlet]; norm_num)).1

/-- C13 as stated fails: an initial iterate whose residual norm `1e-13` is
already below the absolute limit `1e-12` passes the convergence test of
`Assemble`, which comes right after `Init`; with a budget of 0 outer iterations
the solve returns it as converged and raises no `NonlinearSolveError`. -/
theorem newtonApply_zero_budget_counterexample :
    newtonApply { exampleNewtonConfig (1 / 10 ^ 12) with maxIterations := 0 }
        ({ defect := fun x => |x|, linearSolve := fun x => some (-x),
           update := fun x dx lam => x + lam * dx } : NewtonProblem ℚ ℚ) (1 / 10 ^ 13) =
      .ok { x := 1 / 10 ^ 13, iterations := 0, linearSolves := 0 } := by
  simp only [newtonApply, newtonLoop, exampleNewtonConfig]
  rw [if_pos]
  right
  rw [abs_of_pos (by norm_num)]
  norm_num

/-- C13, amended: for every problem and every initial iterate that does not
already pass the convergence test of `Assemble`, a Newton solve whose maximum
number of outer iterations is set to 0 (the examples set 25) fails at once with
a `NonlinearSolveError` that carries the residual norm of the initial iterate
and an iteration count of 0, with no linear solve made and whatever the linear
solve would return; an initial iterate that passes the test is returned as
converged, also without a linear solve.  With the other settings of the
examples, the test is not passed when the residual norm is positive and not
below the absolute limit. -/
theorem newtonApply_zero_budget {X D : Type} (cfg : NewtonConfig) (p : NewtonProblem X D)
    (x0 : X) (absLimit : ℚ) :
    (¬ (p.defect x0 / p.defect x0 < cfg.reduction ∨ p.defect x0 < cfg.absLimit) →
      ∀ ls : X → Option D,
        newtonApply { cfg with maxIterations := 0 } { p with linearSolve := ls } x0 =
          .error (.NonlinearSolveError (p.defect x0) 0 0)) ∧
      ((p.defect x0 / p.defect x0 < cfg.reduction ∨ p.defect x0 < cfg.absLimit) →
        ∀ ls : X → Option D,
          newtonApply { cfg with maxIterations := 0 } { p with linearSolve := ls } x0 =
            .ok { x := x0, iterations := 0, linearSolves := 0 }) ∧
      (exampleNewtonConfig absLimit).maxIterations = 25 ∧
      (0 < p.defect x0 → absLimit ≤ p.defect x0 →
        newtonApply { exampleNewtonConfig absLimit with maxIterations := 0 } p x0 =
          .error (.NonlinearSolveError (p.defect x0) 0 0)) := by
  refine ⟨?_, ?_, rfl, ?_⟩
  · intro h ls
    simp only [newtonApply, newtonLoop]
    rw [if_neg h]
  · intro h ls
    simp only [newtonApply, newtonLoop]
    rw [if_pos h]
  · intro hpos habs
    simp only [newtonApply, newtonLoop, exampleNewtonConfig]
    rw [if_neg]
    rw [div_self (ne_of_gt hpos)]
    intro h
    rcases h with h | h
    · norm_num at h
    · exact absurd h (not_lt.mpr habs)

/-- Witness for C13: the scalar problem with residual norm `|x|`, started at
`1` with the settings of the examples, an absolute limit of `1e-12` and a
budget of 0: the test of `Assemble` is not passed and the solve fails at once,
although the linear solve offered would reach the root in one step. -/
theorem newtonApply_zero_budget_witness :
    newtonApply { exampleNewtonConfig (1 / 10 ^ 12) with maxIterations := 0 }
        ({ defect := fun x => |x|, linearSolve := fun x => some (-x),
           update := fun x dx lam => x + lam * dx } : NewtonProblem ℚ ℚ) 1 =
      .error (.NonlinearSolveError 1 0 0) :=
  (newtonApply_zero_budget (exampleNewtonConfig (1 / 10 ^ 12))
    ({ defect := fun x => |x|, linearSolve := fun x => some (-x),
       update := fun x dx lam => x + lam * dx } : NewtonProblem ℚ ℚ) 1 (1 / 10 ^ 12)).1
    (by simp only [exampleNewtonConfig]; norm_num) (fun x => some (-x))

/-- C15 as stated fails: in test cases 1, 7 and 10 the finite-element map is
constructed from the grid view (`FEM fem(gv)`) and the constructor of the
hanging-node constraints engine, which refines the grid, is called
afterwards. -/
theorem adaptation_after_fem_counterexample :
    testcases.map (followedBy MainEvent.isBuiltFromGridView MainEvent.isAdaptation) =
      [true, false, false, false, false, false, true, false, false, true, false] := by
  decide

/-- C15, amended: in every test case of `main` no mesh-adaptation command is
issued after the grid function space has been constructed, up to the export of
the solution, and after a finite-element map has been constructed from the grid
view no mesh-adaptation command other than the isolating refinement of the
hanging-node constraints constructor is issued. -/
theorem no_adaptation_after_gfs :
    testcases.all (fun tc =>
      !followedBy (fun e => decide (e = MainEvent.makeGridFunctionSpace))
          MainEvent.isAdaptation tc &&
        !followedBy MainEvent.isBuiltFromGridView
          (fun e => e.isAdaptation && !decide (e = MainEvent.makeConstraintsEngine true)) tc &&
        decide (tc.getLast? = some MainEvent.vtkWrite)) = true := by
  decide

/-! ### The source term `F` -/

/-- C21: for every point `x` and every prior content of `y`, also for `x`
inside the box `0.25 < x[0] < 0.375`, `0.25 < x[1] < 0.375`, `F::evaluateGlobal`
yields `0`; the value `50` is never returned. -/
theorem F_evaluateGlobal_zero (x : Point) (y : ℚ) :
    F.evaluateGlobal x y = 0 ∧ F.evaluateGlobal x y ≠ 50 ∧
      ((1 / 4 < x 0 ∧ x 0 < 3 / 8 ∧ 1 / 4 < x 1 ∧ x 1 < 3 / 8) → F.evaluateGlobal x y = 0) := by
  have h0 : F.evaluateGlobal x y = 0 := by
    unfold F.evaluateGlobal
    by_cases hb : x 0 > 0.25 ∧ x 0 < 0.375 ∧ x 1 > 0.25 ∧ x 1 < 0.375
    · simp only [Id.run, if_pos hb]
      rfl
    · simp only [Id.run, if_neg hb]
      rfl
  refine ⟨h0, ?_, fun _ => h0⟩
  rw [h0]
  norm_num

/-- Witness for C21: at the point `(3/10, 3/10)` inside the box the source
value is `0`, whatever `y` held before. -/
theorem F_evaluateGlobal_zero_witness : F.evaluateGlobal (fun _ => 3 / 10) 7 = 0 :=
  (F_evaluateGlobal_zero (fun _ => 3 / 10) 7).2.2 (by norm_num)

end PDELabHowto
